import Mathlib

set_option maxHeartbeats 1000000
set_option maxRecDepth 100000

/-!
Verification of the MZifier rewrite engine (src/MZifier.py).

The engine is four ordered text-rewriting stages over one buffer:
header normalization, Window_Base symbol migration, color-helper call
substitution, and pluginCommand annotation.  Each Python regex used by the
source is simple (a literal with word boundaries, or a literal followed by
optional whitespace, a parenthesis and a lazily captured argument), so each
one is embedded directly as an executable matcher over List Char, and
re.sub / re.subn / re.search are embedded as left-to-right scanners that
resume after each match.  Fuel arguments only bound recursion depth; every
match consumes at least one character, so fuel equal to the text length is
always sufficient (proved below as the totality theorem).
-/

namespace MZifier

/-- Word characters for the regex boundary class over source text. -/
def isWordChar (c : Char) : Bool := c.isAlphanum || c == '_'

/-- Whitespace characters matched by the regex class backslash-s. -/
def wsChar (c : Char) : Bool :=
  c == ' ' || c == '\t' || c == '\n' || c == '\r' || c == '\x0b' || c == '\x0c'

/-- Line-break characters recognized by Python str.splitlines. -/
def lineBreakChar (c : Char) : Bool :=
  c == '\n' || c == '\r' || c == '\x0b' || c == '\x0c' ||
  c == Char.ofNat 28 || c == Char.ofNat 29 || c == Char.ofNat 30 ||
  c == Char.ofNat 133 || c == Char.ofNat 8232 || c == Char.ofNat 8233

/-- A word boundary holds before the scan position when the previous
character (if any) is not a word character; this is the boundary test for
patterns that begin with a word character. -/
def bdryBefore : Option Char → Bool
  | none => true
  | some c => !isWordChar c

/-- A word boundary holds after a literal ending in a word character when
the following text does not begin with a word character. -/
def bdryAfter : List Char → Bool
  | [] => true
  | c :: _ => !isWordChar c

/-- Number of positions of the text at which pat occurs as a substring. -/
def countOcc (pat : List Char) : List Char → Nat
  | [] => if pat.isEmpty then 1 else 0
  | c :: cs => (if pat.isPrefixOf (c :: cs) then 1 else 0) + countOcc pat cs

/-- Index of the first occurrence of pat as a substring, if any. -/
def findSubIdx (pat : List Char) : List Char → Option Nat
  | [] => if pat.isEmpty then some 0 else none
  | c :: cs =>
      if pat.isPrefixOf (c :: cs) then some 0
      else (findSubIdx pat cs).map (· + 1)

/-- Substring containment, as the Python in operator on strings. -/
def containsSub (pat s : List Char) : Bool := (findSubIdx pat s).isSome

/-- One substitution-step descriptor.  When the regex matches at the current
position the matcher returns the replacement emission, the rest of the input
after the matched span, and the last character of the matched span (needed
for later word-boundary tests). -/
def Matcher : Type := Option Char → List Char → Option (List Char × List Char × Char)

/-- Global regex substitution as performed by re.sub and re.subn: scan left
to right, at each position try the matcher; on a match emit the replacement
and resume after the matched span, otherwise copy one character.  Returns
the new text together with the list of emissions, one per match. -/
def scanSub (t : Matcher) : Nat → Option Char → List Char → List Char × List (List Char)
  | _, _, [] => ([], [])
  | 0, _, s => (s, [])
  | fuel+1, prev, c :: cs =>
    match t prev (c :: cs) with
    | some (e, r, lc) =>
        let p := scanSub t fuel (some lc) r
        (e ++ p.1, e :: p.2)
    | none =>
        let p := scanSub t fuel (some c) cs
        (c :: p.1, p.2)

/-- Whether the pattern matches anywhere in the text, as re.search. -/
def hasMatchSub (t : Matcher) : Option Char → List Char → Bool
  | _, [] => false
  | prev, c :: cs => (t prev (c :: cs)).isSome || hasMatchSub t (some c) cs

/-- Matcher for a regex that is a literal between two word boundaries, with
a fixed replacement emission. -/
def litTry (pat rep : List Char) : Matcher := fun prev s =>
  if bdryBefore prev && pat.isPrefixOf s && bdryAfter (s.drop pat.length) then
    some (rep, s.drop pat.length, pat.getLastD ' ')
  else none

/-- Lazy search for the capture of the argument-taking color patterns after
the whitespace following the opening parenthesis: at each position, close if
optional whitespace followed by a closing parenthesis starts here (the
shortest capture wins); otherwise take one more non-newline character into
the capture (the dot class does not match a newline), failing on a newline.
Returns the capture and the number of characters consumed including the
closing parenthesis. -/
def lazyClose : List Char → Option (List Char × Nat)
  | [] => none
  | c :: cs =>
      if ((c :: cs).dropWhile wsChar).head? == some ')' then
        some ([], ((c :: cs).takeWhile wsChar).length + 1)
      else if c == '\n' then none
      else match lazyClose cs with
        | some (t, n) => some (c :: t, n + 1)
        | none => none

def thisDot : List Char := "this.".data

def colorMgrDot : List Char := "ColorManager.".data

/-- Matcher for the argument-taking color patterns: literal this.name after
a word boundary, greedy whitespace, an opening parenthesis, greedy
whitespace, then the lazy capture up to the closing parenthesis.  The
emission re-emits the capture inside the ColorManager call. -/
def colorTryArg (name : List Char) : Matcher := fun prev s =>
  if bdryBefore prev && (thisDot ++ name).isPrefixOf s then
    match (s.drop (thisDot ++ name).length).dropWhile wsChar with
    | '(' :: r3 =>
        match lazyClose (r3.dropWhile wsChar) with
        | some (g, n) =>
            some (colorMgrDot ++ name ++ '(' :: (g ++ [')']),
                  (r3.dropWhile wsChar).drop n, ')')
        | none => none
    | _ => none
  else none

/-- Matcher for the no-argument color patterns: literal this.name after a
word boundary, greedy whitespace, parentheses with only whitespace inside. -/
def colorTryNoArg (name : List Char) : Matcher := fun prev s =>
  if bdryBefore prev && (thisDot ++ name).isPrefixOf s then
    match (s.drop (thisDot ++ name).length).dropWhile wsChar with
    | '(' :: r3 =>
        match r3.dropWhile wsChar with
        | ')' :: r5 => some (colorMgrDot ++ name ++ "()".data, r5, ')')
        | _ => none
    | _ => none
  else none

/-- The catalog WINDOW_BASE_TO_STATUSBASE_METHODS from the source. -/
def WINDOW_BASE_TO_STATUSBASE_METHODS : List (List Char) :=
  [("drawActorSimpleStatus").data, ("drawActorName").data, ("drawActorClass").data,
   ("drawActorNickname").data, ("drawActorLevel").data, ("drawActorIcons").data,
   ("drawActorHp").data, ("drawActorMp").data, ("drawActorTp").data,
   ("drawActorHpGauge").data, ("drawActorMpGauge").data, ("drawActorTpGauge").data,
   ("placeActorName").data, ("placeGauge").data]

/-- Shape of one COLOR_REPLACEMENTS catalog entry: the helpers that capture
an argument and those that only match an empty argument list. -/
inductive ColorRule
  | noArg (name : List Char)
  | withArg (name : List Char)
deriving DecidableEq

/-- The catalog COLOR_REPLACEMENTS from the source, in order. -/
def COLOR_REPLACEMENTS : List ColorRule :=
  [.noArg (("systemColor").data), .noArg (("crisisColor").data),
   .noArg (("deathColor").data), .noArg (("gaugeBackColor").data),
   .withArg (("hpColor").data), .withArg (("mpColor").data),
   .withArg (("tpColor").data), .noArg (("mpCostColor").data),
   .noArg (("powerUpColor").data), .noArg (("powerDownColor").data),
   .withArg (("paramchangeTextColor").data), .withArg (("textColor").data),
   .noArg (("normalColor").data)]

/-- The regex source string of a color entry, as it appears in the report. -/
def patStr : ColorRule → List Char
  | .noArg n => ("\\bthis\\.").data ++ n ++ ("\\s*\\(\\s*\\)").data
  | .withArg n => ("\\bthis\\.").data ++ n ++ ("\\s*\\(\\s*(.*?)\\s*\\)").data

/-- The replacement template string of a color entry, as in the report. -/
def replStr : ColorRule → List Char
  | .noArg n => colorMgrDot ++ n ++ ("()").data
  | .withArg n => colorMgrDot ++ n ++ ("(\\1)").data

def colorTryOf : ColorRule → Matcher
  | .noArg n => colorTryNoArg n
  | .withArg n => colorTryArg n

/-- re.subn for one color entry: the new text and one emission per match. -/
def colorSub (e : ColorRule) (s : List Char) : List Char × List (List Char) :=
  scanSub (colorTryOf e) s.length none s

def arrowStr : List Char := (" -> ").data

/-- The report line a color entry contributes when it matched n times. -/
def colorLine (e : ColorRule) (n : Nat) : List Char :=
  patStr e ++ arrowStr ++ replStr e ++ (" (").data ++ (toString n).data ++ ("x)").data

/-- The loop body of replace_colors over the ordered catalog. -/
def colorStage : List ColorRule → List Char × List (List Char) → List Char × List (List Char)
  | [], acc => acc
  | e :: es, acc =>
      let p := colorSub e acc.1
      colorStage es (if 0 < p.2.length then (p.1, acc.2 ++ [colorLine e p.2.length]) else acc)

/-- replace_colors from the source; returns the input unchanged with an
empty change list when keep_mv_color is set. -/
def replace_colors (keep_mv_color : Bool) (s : List Char) : List Char × List (List Char) :=
  if keep_mv_color then (s, [])
  else colorStage COLOR_REPLACEMENTS (s, [])

def wbOld : List Char := ("Window_Base.prototype.").data

def wbNew : List Char := ("Window_StatusBase.prototype.").data

def wbPat (m : List Char) : List Char := wbOld ++ m

def wbRep (m : List Char) : List Char := wbNew ++ m

def wbTry (m : List Char) : Matcher := litTry (wbPat m) (wbRep m)

/-- re.search for one symbol-migration entry. -/
def wbSearch (m s : List Char) : Bool := hasMatchSub (wbTry m) none s

/-- re.sub for one symbol-migration entry. -/
def wbSubOnce (m s : List Char) : List Char := (scanSub (wbTry m) s.length none s).1

/-- The report line of one symbol-migration entry. -/
def wbLine (m : List Char) : List Char := wbPat m ++ arrowStr ++ wbRep m

/-- The loop body of replace_window_base_methods over the catalog. -/
def wbStage : List (List Char) → List Char × List (List Char) → List Char × List (List Char)
  | [], acc => acc
  | m :: ms, acc =>
      wbStage ms (if wbSearch m acc.1 then (wbSubOnce m acc.1, acc.2 ++ [wbLine m]) else acc)

/-- replace_window_base_methods from the source. -/
def replace_window_base_methods (s : List Char) : List Char × List (List Char) :=
  wbStage WINDOW_BASE_TO_STATUSBASE_METHODS (s, [])

def pcLit : List Char := ("Game_Interpreter.prototype.pluginCommand").data

/-- The catalog MV_PLUGIN_COMMAND_SIGNS from the source. -/
def MV_PLUGIN_COMMAND_SIGNS : List (List Char) := [pcLit]

/-- The fixed TODO annotation text inserted before each detected occurrence. -/
def todoStr : List Char :=
  ("\n// [MZ TODO] Detected MV-style pluginCommand. In MZ, migrate to:\n// PluginManager.registerCommand(pluginName, command, handler)\n// and use @command/@arg annotations in the header.\n").data

def pcLine : List Char := ("Annotated MV pluginCommand for manual conversion.").data

/-- The matcher of one annotation entry: the emission is the TODO text
followed by the matched occurrence itself, unchanged. -/
def pcTryOf (sig : List Char) : Matcher := litTry sig (todoStr ++ sig)

/-- The loop body of annotate_plugin_command_todos over the catalog. -/
def pcStage : List (List Char) → List Char × List (List Char) → List Char × List (List Char)
  | [], acc => acc
  | sig :: sigs, acc =>
      pcStage sigs
        (if hasMatchSub (pcTryOf sig) none acc.1
         then ((scanSub (pcTryOf sig) acc.1.length none acc.1).1, acc.2 ++ [pcLine])
         else acc)

/-- annotate_plugin_command_todos from the source. -/
def annotate_plugin_command_todos (s : List Char) : List Char × List (List Char) :=
  pcStage MV_PLUGIN_COMMAND_SIGNS (s, [])

def headerOpen : List Char := ("/*:").data

def headerClose : List Char := ("*/").data

/-- First match of the header-block regex: from the first occurrence of the
open marker to the end of the nearest close marker starting after it.
Returns the start index and the length of the match. -/
def findHeader (s : List Char) : Option (Nat × Nat) :=
  match findSubIdx headerOpen s with
  | none => none
  | some i =>
      match findSubIdx headerClose ((s.drop i).drop 3) with
      | none => none
      | some j => some (i, 3 + j + 2)

def splitlinesAux : Nat → List Char → List (List Char)
  | _, [] => []
  | 0, s => [s]
  | fuel+1, s =>
      let line := s.takeWhile (fun c => !lineBreakChar c)
      match s.drop line.length with
      | [] => [line]
      | '\r' :: '\n' :: r => line :: splitlinesAux fuel r
      | _ :: r => line :: splitlinesAux fuel r

/-- Python str.splitlines. -/
def splitlines (s : List Char) : List (List Char) := splitlinesAux s.length s

/-- Python newline join of a list of lines. -/
def joinNL : List (List Char) → List Char
  | [] => []
  | [l] => l
  | l :: ls => l ++ '\n' :: joinNL ls

/-- Python list.insert for an index at most the length. -/
def insertAt (i : Nat) (a : List Char) (ls : List (List Char)) : List (List Char) :=
  ls.take i ++ a :: ls.drop i

def targetMark : List Char := ("@target").data

def markerLine : List Char := (" * @target MZ").data

/-- add_target_mz from the source: return the header unchanged when it
contains the target marker, otherwise insert the marker line at index 1 of
its split lines (index 0 when there is a single line) and rejoin. -/
def add_target_mz (header : List Char) : List Char :=
  if containsSub targetMark header then header
  else
    match splitlines header with
    | [] => header
    | l :: ls =>
        joinNL (insertAt (if 1 < (l :: ls).length then 1 else 0) markerLine (l :: ls))

/-- ensure_header_has_target_mz from the source: rewrite the first header
block and splice it back at the same offsets when it changed. -/
def ensure_header_has_target_mz (s : List Char) : List Char × Bool :=
  match findHeader s with
  | none => (s, false)
  | some (i, len) =>
      let header := (s.drop i).take len
      let newHeader := add_target_mz header
      if newHeader ≠ header then (s.take i ++ newHeader ++ s.drop (i + len), true)
      else (s, false)

def apos : Char := Char.ofNat 39

/-- The header-stage report line. -/
def headerLine : List Char :=
  ("Added ").data ++ apos :: ("@target MZ").data ++ apos :: (" to plugin header.").data

/-- convert_text from the source: the four stages in order over one buffer,
with the change reports concatenated in stage order. -/
def convert_text (keep_mv_color : Bool) (s : List Char) : List Char × List (List Char) :=
  let p1 := ensure_header_has_target_mz s
  let r1 : List (List Char) := if p1.2 then [headerLine] else []
  let p2 := replace_window_base_methods p1.1
  let p3 := replace_colors keep_mv_color p2.1
  let p4 := annotate_plugin_command_todos p3.1
  (p4.1, r1 ++ p2.2 ++ p3.2 ++ p4.2)

/-- The first header block itself, when one exists. -/
def headerOf (s : List Char) : Option (List Char) :=
  (findHeader s).map (fun p => (s.drop p.1).take p.2)

/-- Whether a report line belongs to a given color entry: it starts with
that entry's regex source string followed by the arrow. -/
def isLineFor (e : ColorRule) (l : List Char) : Bool :=
  (patStr e ++ arrowStr).isPrefixOf l

/-- A batch of independent conversions, each a flag and an input text. -/
def runBatch (jobs : List (Bool × List Char)) : List (List Char × List (List Char)) :=
  jobs.map (fun j => convert_text j.1 j.2)

/-- A matcher consumes at least one character on every match. -/
def Consuming (t : Matcher) : Prop :=
  ∀ prev s e r lc, t prev s = some (e, r, lc) → r.length < s.length

/-- The character preceding the continuation when the verbatim chunk v has
been scanned after context prev. -/
def lastCtx (prev : Option Char) (v : List Char) : Option Char :=
  match v with
  | [] => prev
  | _ :: _ => some (v.getLastD ' ')

/-- Whether the matcher fires at some position strictly inside the chunk v,
where the text continues with K after v. -/
def fireIn (t : Matcher) (prev : Option Char) : List Char → List Char → Bool
  | [], _ => false
  | c :: v, K => (t prev (c :: v ++ K)).isSome || fireIn t (some c) v K

/-- The matcher fires at no position inside v when the continuation is K. -/
def NoFireOn (t : Matcher) (prev : Option Char) (v K : List Char) : Prop :=
  ∀ v₁ v₂, v₂ ≠ [] → v = v₁ ++ v₂ → t (lastCtx prev v₁) (v₂ ++ K) = none

/-- Relates input and output of a single-pattern substitution: the input is
a sequence of match-free verbatim chunks separated by matched spans, and the
output replaces each span by the emission of the recorded fire. -/
inductive SubParse (t : Matcher) (pat rep : List Char) :
    Option Char → List Char → List Char → Prop
  | last (prev : Option Char) (v : List Char) (hv : NoFireOn t prev v []) :
      SubParse t pat rep prev v v
  | step (prev : Option Char) (v s out : List Char)
      (hv : NoFireOn t prev v (pat ++ s))
      (hfire : t (lastCtx prev v) (pat ++ s) = some (rep, s, pat.getLastD ' '))
      (hrec : SubParse t pat rep (some (pat.getLastD ' ')) s out) :
      SubParse t pat rep prev (v ++ (pat ++ s)) (v ++ (rep ++ out))

/-- Side conditions on an ordered pair of literal rules under which a
substitution for pat neither creates nor destroys matches of the distinct
literal patP.  hd is the shared head character of the patterns and of the
replacement. -/
@[reducible]
def PairOK (pat rep patP : List Char) (hd : Char) : Prop :=
  patP ≠ pat ∧
  patP.head? = some hd ∧ pat.head? = some hd ∧ rep.head? = some hd ∧
  hd ∉ patP.tail ∧ hd ∉ pat.tail ∧ hd ∉ rep.tail ∧
  patP.isPrefixOf rep = false ∧ rep.isPrefixOf patP = false ∧
  rep.getLastD ' ' = pat.getLastD ' ' ∧
  (patP.isPrefixOf pat = true → isWordChar ((pat.drop patP.length).headD ' ') = true) ∧
  (pat.isPrefixOf patP = true → isWordChar ((patP.drop pat.length).headD ' ') = true)

/-- Side conditions on one literal rule under which its own substitution
leaves no match of its pattern behind. -/
@[reducible]
def SelfOK (pat rep : List Char) (hd : Char) : Prop :=
  pat.head? = some hd ∧ rep.head? = some hd ∧ hd ∉ pat.tail ∧ hd ∉ rep.tail ∧
  pat.isPrefixOf rep = false ∧ rep.isPrefixOf pat = false ∧
  rep.getLastD ' ' = pat.getLastD ' '

/-- colorSub with surplus fuel; used to state that the engine is total. -/
def colorSubX (x : Nat) (e : ColorRule) (s : List Char) : List Char × List (List Char) :=
  scanSub (colorTryOf e) (s.length + x) none s

def colorStageX (x : Nat) :
    List ColorRule → List Char × List (List Char) → List Char × List (List Char)
  | [], acc => acc
  | e :: es, acc =>
      let p := colorSubX x e acc.1
      colorStageX x es (if 0 < p.2.length then (p.1, acc.2 ++ [colorLine e p.2.length]) else acc)

def replace_colorsX (x : Nat) (keep_mv_color : Bool) (s : List Char) :
    List Char × List (List Char) :=
  if keep_mv_color then (s, []) else colorStageX x COLOR_REPLACEMENTS (s, [])

def wbSubOnceX (x : Nat) (m s : List Char) : List Char :=
  (scanSub (wbTry m) (s.length + x) none s).1

def wbStageX (x : Nat) :
    List (List Char) → List Char × List (List Char) → List Char × List (List Char)
  | [], acc => acc
  | m :: ms, acc =>
      wbStageX x ms (if wbSearch m acc.1 then (wbSubOnceX x m acc.1, acc.2 ++ [wbLine m]) else acc)

def replace_window_base_methodsX (x : Nat) (s : List Char) : List Char × List (List Char) :=
  wbStageX x WINDOW_BASE_TO_STATUSBASE_METHODS (s, [])

def pcStageX (x : Nat) :
    List (List Char) → List Char × List (List Char) → List Char × List (List Char)
  | [], acc => acc
  | sig :: sigs, acc =>
      pcStageX x sigs
        (if hasMatchSub (pcTryOf sig) none acc.1
         then ((scanSub (pcTryOf sig) (acc.1.length + x) none acc.1).1, acc.2 ++ [pcLine])
         else acc)

def annotate_plugin_command_todosX (x : Nat) (s : List Char) : List Char × List (List Char) :=
  pcStageX x MV_PLUGIN_COMMAND_SIGNS (s, [])

def splitlinesX (x : Nat) (s : List Char) : List (List Char) :=
  splitlinesAux (s.length + x) s

def add_target_mzX (x : Nat) (header : List Char) : List Char :=
  if containsSub targetMark header then header
  else
    match splitlinesX x header with
    | [] => header
    | l :: ls =>
        joinNL (insertAt (if 1 < (l :: ls).length then 1 else 0) markerLine (l :: ls))

def ensure_header_has_target_mzX (x : Nat) (s : List Char) : List Char × Bool :=
  match findHeader s with
  | none => (s, false)
  | some (i, len) =>
      let header := (s.drop i).take len
      let newHeader := add_target_mzX x header
      if newHeader ≠ header then (s.take i ++ newHeader ++ s.drop (i + len), true)
      else (s, false)

/-- convert_text with surplus fuel x added to every bounded recursion. -/
def convert_textX (x : Nat) (keep_mv_color : Bool) (s : List Char) :
    List Char × List (List Char) :=
  let p1 := ensure_header_has_target_mzX x s
  let r1 : List (List Char) := if p1.2 then [headerLine] else []
  let p2 := replace_window_base_methodsX x p1.1
  let p3 := replace_colorsX x keep_mv_color p2.1
  let p4 := annotate_plugin_command_todosX x p3.1
  (p4.1, r1 ++ p2.2 ++ p3.2 ++ p4.2)

/-- The header stage has nothing to do: there is no header block, or the
first header block already contains the target marker. -/
def headerNeedsNothing (s : List Char) : Bool :=
  match headerOf s with
  | none => true
  | some H => containsSub targetMark H

/-- The replacement form a color entry emits for a captured argument x (the
no-argument entries ignore x). -/
def colorEmission (e : ColorRule) (x : List Char) : List Char :=
  match e with
  | .noArg n => colorMgrDot ++ n ++ ("()").data
  | .withArg n => colorMgrDot ++ n ++ '(' :: (x ++ [')'])

/-- The text of the accumulator at the moment a given catalog entry is
reached by the color stage, the entries ahead of it in the list having
already run their substitutions (an entry with no match leaves the text
unchanged, so the unconditional substitution result agrees with the
stage). -/
def colorPre (e : ColorRule) : List ColorRule → List Char → List Char
  | [], t => t
  | eP :: es, t => if eP = e then t else colorPre e es (colorSub eP t).1

/-! ### Basic facts about the substitution scanners -/

theorem scanSub_nil (t : Matcher) (fuel : Nat) (prev : Option Char) :
    scanSub t fuel prev [] = ([], []) := by
  cases fuel <;> rfl

theorem scanSub_zero (t : Matcher) (prev : Option Char) (s : List Char) :
    scanSub t 0 prev s = (s, []) := by
  cases s <;> rfl

theorem scanSub_cons_none (t : Matcher) (fuel : Nat) (prev : Option Char) (c : Char)
    (cs : List Char) (h : t prev (c :: cs) = none) :
    scanSub t (fuel + 1) prev (c :: cs) =
      (c :: (scanSub t fuel (some c) cs).1, (scanSub t fuel (some c) cs).2) := by
  simp only [scanSub, h]

theorem scanSub_cons_some (t : Matcher) (fuel : Nat) (prev : Option Char) (c : Char)
    (cs : List Char) (e r : List Char) (lc : Char) (h : t prev (c :: cs) = some (e, r, lc)) :
    scanSub t (fuel + 1) prev (c :: cs) =
      (e ++ (scanSub t fuel (some lc) r).1, e :: (scanSub t fuel (some lc) r).2) := by
  simp only [scanSub, h]

theorem hasMatchSub_nil (t : Matcher) (prev : Option Char) :
    hasMatchSub t prev [] = false := rfl

theorem hasMatchSub_cons (t : Matcher) (prev : Option Char) (c : Char) (cs : List Char) :
    hasMatchSub t prev (c :: cs) =
      ((t prev (c :: cs)).isSome || hasMatchSub t (some c) cs) := rfl

/-- A scan over text with no match anywhere returns the text unchanged with
no emissions, at every fuel. -/
theorem scanSub_of_not_hasMatch (t : Matcher) :
    ∀ (fuel : Nat) (prev : Option Char) (s : List Char),
      hasMatchSub t prev s = false → scanSub t fuel prev s = (s, []) := by
  intro fuel
  induction fuel with
  | zero => intro prev s _; exact scanSub_zero t prev s
  | succ fuel ih =>
      intro prev s h
      cases s with
      | nil => exact scanSub_nil t _ prev
      | cons c cs =>
          rw [hasMatchSub_cons, Bool.or_eq_false_iff] at h
          cases ht : t prev (c :: cs) with
          | some v => rw [ht] at h; simp at h
          | none => rw [scanSub_cons_none t fuel prev c cs ht, ih (some c) cs h.2]

/-- A scan that emitted nothing returns its input text. -/
theorem scanSub_fst_of_hits_nil (t : Matcher) :
    ∀ (fuel : Nat) (prev : Option Char) (s : List Char),
      (scanSub t fuel prev s).2 = [] → (scanSub t fuel prev s).1 = s := by
  intro fuel
  induction fuel with
  | zero => intro prev s _; rw [scanSub_zero]
  | succ fuel ih =>
      intro prev s h
      cases s with
      | nil => rw [scanSub_nil]
      | cons c cs =>
          cases ht : t prev (c :: cs) with
          | some v =>
              obtain ⟨e, r, lc⟩ := v
              rw [scanSub_cons_some t fuel prev c cs e r lc ht] at h
              simp at h
          | none =>
              rw [scanSub_cons_none t fuel prev c cs ht] at h ⊢
              rw [ih (some c) cs h]

theorem countOcc_append_le (pat a b : List Char) :
    countOcc pat b ≤ countOcc pat (a ++ b) := by
  induction a with
  | nil => simp
  | cons c cs ih =>
      have h : countOcc pat (c :: (cs ++ b)) =
          (if pat.isPrefixOf (c :: (cs ++ b)) then 1 else 0) + countOcc pat (cs ++ b) := rfl
      simp only [List.cons_append, h]
      omega

theorem le_countOcc_self_append (E l : List Char) (hE : E ≠ []) :
    1 + countOcc E l ≤ countOcc E (E ++ l) := by
  cases E with
  | nil => exact absurd rfl hE
  | cons d E' =>
      have h1 : (d :: E').isPrefixOf (d :: (E' ++ l)) = true := by
        rw [List.isPrefixOf_iff_prefix]
        exact ⟨l, by simp⟩
      have h2 : countOcc (d :: E') (d :: (E' ++ l)) =
          (if (d :: E').isPrefixOf (d :: (E' ++ l)) then 1 else 0) +
            countOcc (d :: E') (E' ++ l) := rfl
      have h3 := countOcc_append_le (d :: E') E' l
      have h4 : countOcc (d :: E') ((d :: E') ++ l) = 1 + countOcc (d :: E') (E' ++ l) := by
        simp only [List.cons_append]
        rw [h2, if_pos h1]
      omega

/-- When every emission of a scan is the same nonempty string E, the output
contains at least one occurrence of E per emission. -/
theorem hits_le_countOcc (t : Matcher) (E : List Char) (hE : E ≠ []) :
    ∀ (fuel : Nat) (prev : Option Char) (s : List Char),
      (∀ h ∈ (scanSub t fuel prev s).2, h = E) →
      (scanSub t fuel prev s).2.length ≤ countOcc E (scanSub t fuel prev s).1 := by
  intro fuel
  induction fuel with
  | zero => intro prev s _; rw [scanSub_zero]; simp
  | succ fuel ih =>
      intro prev s hall
      cases s with
      | nil => rw [scanSub_nil]; simp
      | cons c cs =>
          cases ht : t prev (c :: cs) with
          | some v =>
              obtain ⟨e, r, lc⟩ := v
              rw [scanSub_cons_some t fuel prev c cs e r lc ht] at hall ⊢
              have he : e = E := hall e (by simp)
              have hrec := ih (some lc) r (fun h hm => hall h (by simp [hm]))
              have hself := le_countOcc_self_append E (scanSub t fuel (some lc) r).1 hE
              simp only [he, List.length_cons]
              omega
          | none =>
              rw [scanSub_cons_none t fuel prev c cs ht] at hall ⊢
              have hrec := ih (some c) cs hall
              have h : countOcc E (c :: (scanSub t fuel (some c) cs).1) =
                  (if E.isPrefixOf (c :: (scanSub t fuel (some c) cs).1) then 1 else 0) +
                    countOcc E (scanSub t fuel (some c) cs).1 := rfl
              dsimp only
              rw [h]
              omega

/-- A scan whose matcher only inserts a fixed prefix ins before the matched
span leaves the input as a sublist of the output (insertion only) and grows
the length by exactly the length of ins per emission. -/
theorem scanSub_insert_only (t : Matcher) (ins : List Char)
    (hins : ∀ prev s e r lc, t prev s = some (e, r, lc) → ∃ u, s = u ++ r ∧ e = ins ++ u) :
    ∀ (fuel : Nat) (prev : Option Char) (s : List Char),
      List.Sublist s (scanSub t fuel prev s).1 ∧
        (scanSub t fuel prev s).1.length =
          s.length + ins.length * (scanSub t fuel prev s).2.length := by
  intro fuel
  induction fuel with
  | zero => intro prev s; rw [scanSub_zero]; simp [List.Sublist.refl]
  | succ fuel ih =>
      intro prev s
      cases s with
      | nil => rw [scanSub_nil]; simp [List.Sublist.refl]
      | cons c cs =>
          cases ht : t prev (c :: cs) with
          | some v =>
              obtain ⟨e, r, lc⟩ := v
              rw [scanSub_cons_some t fuel prev c cs e r lc ht]
              obtain ⟨u, hu, heq⟩ := hins prev (c :: cs) e r lc ht
              obtain ⟨hsub, hlen⟩ := ih (some lc) r
              constructor
              · rw [hu, heq, List.append_assoc]
                have h1 : List.Sublist (u ++ r) (u ++ (scanSub t fuel (some lc) r).1) :=
                  hsub.append_left u
                have h2 : List.Sublist (u ++ (scanSub t fuel (some lc) r).1)
                    (ins ++ (u ++ (scanSub t fuel (some lc) r).1)) :=
                  List.sublist_append_right ins _
                exact h1.trans h2
              · have hlu : cs.length + 1 = u.length + r.length := by
                  have := congrArg List.length hu
                  simpa using this
                dsimp only
                simp only [heq, List.length_append, List.length_cons, hlen, Nat.mul_succ]
                omega
          | none =>
              rw [scanSub_cons_none t fuel prev c cs ht]
              obtain ⟨hsub, hlen⟩ := ih (some c) cs
              refine ⟨List.Sublist.cons₂ c hsub, ?_⟩
              dsimp only
              simp only [List.length_cons, hlen, Nat.mul_succ]
              omega

/-! ### Fuel sufficiency: the scanners are total -/

/-- Above the length of the text the fuel of a consuming scan is
irrelevant. -/
theorem scanSub_fuel_eq (t : Matcher) (hc : Consuming t) :
    ∀ (f₁ f₂ : Nat) (prev : Option Char) (s : List Char),
      s.length ≤ f₁ → s.length ≤ f₂ →
      scanSub t f₁ prev s = scanSub t f₂ prev s := by
  intro f₁
  induction f₁ with
  | zero =>
      intro f₂ prev s h1 _
      have hs : s = [] := List.eq_nil_of_length_eq_zero (Nat.le_zero.mp h1)
      subst hs
      rw [scanSub_nil, scanSub_nil]
  | succ f₁ ih =>
      intro f₂ prev s h1 h2
      cases s with
      | nil => rw [scanSub_nil, scanSub_nil]
      | cons c cs =>
          cases f₂ with
          | zero => simp at h2
          | succ f₂ =>
              simp only [List.length_cons] at h1 h2
              cases ht : t prev (c :: cs) with
              | some v =>
                  obtain ⟨e, r, lc⟩ := v
                  have hr : r.length < cs.length + 1 := by
                    simpa using hc prev (c :: cs) e r lc ht
                  rw [scanSub_cons_some t f₁ prev c cs e r lc ht,
                      scanSub_cons_some t f₂ prev c cs e r lc ht,
                      ih f₂ (some lc) r (by omega) (by omega)]
              | none =>
                  rw [scanSub_cons_none t f₁ prev c cs ht,
                      scanSub_cons_none t f₂ prev c cs ht,
                      ih f₂ (some c) cs (by omega) (by omega)]

theorem litTry_consuming (pat rep : List Char) (hp : pat ≠ []) :
    Consuming (litTry pat rep) := by
  intro prev s e r lc h
  simp only [litTry] at h
  split at h
  · rename_i hcond
    rw [Bool.and_assoc, Bool.and_eq_true, Bool.and_eq_true] at hcond
    obtain ⟨-, hpre, -⟩ := hcond
    cases h
    have hlen : pat.length ≤ s.length :=
      (List.isPrefixOf_iff_prefix.mp hpre).length_le
    have hplen : 0 < pat.length := List.length_pos.mpr hp
    simp only [List.length_drop]
    omega
  · simp at h

theorem length_dropWhile_le (p : Char → Bool) (l : List Char) :
    (l.dropWhile p).length ≤ l.length :=
  List.Sublist.length_le (List.dropWhile_sublist _)

theorem colorTryArg_consuming (name : List Char) : Consuming (colorTryArg name) := by
  intro prev s e r lc h
  simp only [colorTryArg] at h
  split at h
  · rename_i hcond
    rw [Bool.and_eq_true] at hcond
    obtain ⟨-, hpre⟩ := hcond
    have hlen : (thisDot ++ name).length ≤ s.length :=
      (List.isPrefixOf_iff_prefix.mp hpre).length_le
    have hL : 0 < (thisDot ++ name).length := by simp [thisDot]
    split at h
    · rename_i r3 hm1
      split at h
      · rename_i g n hm2
        cases h
        have h1 : ((s.drop (thisDot ++ name).length).dropWhile wsChar).length =
            r3.length + 1 := by rw [hm1]; rfl
        have h2 : ((s.drop (thisDot ++ name).length).dropWhile wsChar).length ≤
            s.length - (thisDot ++ name).length := by
          calc ((s.drop (thisDot ++ name).length).dropWhile wsChar).length
              ≤ (s.drop (thisDot ++ name).length).length := length_dropWhile_le _ _
            _ = s.length - (thisDot ++ name).length := List.length_drop _ _
        have h3 : (r3.dropWhile wsChar).length ≤ r3.length := length_dropWhile_le _ _
        have h4 : ((r3.dropWhile wsChar).drop n).length ≤ (r3.dropWhile wsChar).length := by
          rw [List.length_drop]; omega
        omega
      · simp at h
    · simp at h
  · simp at h

theorem colorTryNoArg_consuming (name : List Char) : Consuming (colorTryNoArg name) := by
  intro prev s e r lc h
  simp only [colorTryNoArg] at h
  split at h
  · rename_i hcond
    rw [Bool.and_eq_true] at hcond
    obtain ⟨-, hpre⟩ := hcond
    have hlen : (thisDot ++ name).length ≤ s.length :=
      (List.isPrefixOf_iff_prefix.mp hpre).length_le
    have hL : 0 < (thisDot ++ name).length := by simp [thisDot]
    split at h
    · rename_i r3 hm1
      split at h
      · rename_i r5 hm2
        cases h
        have h1 : ((s.drop (thisDot ++ name).length).dropWhile wsChar).length =
            r3.length + 1 := by rw [hm1]; rfl
        have h2 : ((s.drop (thisDot ++ name).length).dropWhile wsChar).length ≤
            s.length - (thisDot ++ name).length := by
          calc ((s.drop (thisDot ++ name).length).dropWhile wsChar).length
              ≤ (s.drop (thisDot ++ name).length).length := length_dropWhile_le _ _
            _ = s.length - (thisDot ++ name).length := List.length_drop _ _
        have h3 : (r3.dropWhile wsChar).length = r.length + 1 := by rw [hm2]; rfl
        have h4 : (r3.dropWhile wsChar).length ≤ r3.length := length_dropWhile_le _ _
        omega
      · simp at h
    · simp at h
  · simp at h

theorem colorTryOf_consuming (e : ColorRule) : Consuming (colorTryOf e) := by
  cases e with
  | noArg n => exact colorTryNoArg_consuming n
  | withArg n => exact colorTryArg_consuming n

theorem wbPat_ne_nil (m : List Char) : wbPat m ≠ [] := by
  intro h
  have := congrArg List.length h
  simp [wbPat, wbOld] at this

theorem wbTry_consuming (m : List Char) : Consuming (wbTry m) :=
  litTry_consuming (wbPat m) (wbRep m) (wbPat_ne_nil m)

theorem splitlinesAux_nil (f : Nat) : splitlinesAux f [] = [] := by
  cases f <;> rfl

theorem splitlinesAux_succ (f : Nat) (c : Char) (cs : List Char) :
    splitlinesAux (f + 1) (c :: cs) =
      match (c :: cs).drop ((c :: cs).takeWhile (fun c => !lineBreakChar c)).length with
      | [] => [(c :: cs).takeWhile (fun c => !lineBreakChar c)]
      | '\r' :: '\n' :: r =>
          (c :: cs).takeWhile (fun c => !lineBreakChar c) :: splitlinesAux f r
      | _ :: r => (c :: cs).takeWhile (fun c => !lineBreakChar c) :: splitlinesAux f r := rfl

theorem splitlinesAux_fuel_eq :
    ∀ (f₁ f₂ : Nat) (s : List Char), s.length ≤ f₁ → s.length ≤ f₂ →
      splitlinesAux f₁ s = splitlinesAux f₂ s := by
  intro f₁
  induction f₁ with
  | zero =>
      intro f₂ s h1 _
      have hs : s = [] := List.eq_nil_of_length_eq_zero (Nat.le_zero.mp h1)
      subst hs
      rw [splitlinesAux_nil, splitlinesAux_nil]
  | succ f₁ ih =>
      intro f₂ s h1 h2
      cases s with
      | nil => rw [splitlinesAux_nil, splitlinesAux_nil]
      | cons c cs =>
          cases f₂ with
          | zero => simp at h2
          | succ f₂ =>
              simp only [List.length_cons] at h1 h2
              rw [splitlinesAux_succ f₁ c cs, splitlinesAux_succ f₂ c cs]
              have hk : ((c :: cs).takeWhile (fun c => !lineBreakChar c)).length +
                  ((c :: cs).drop ((c :: cs).takeWhile (fun c => !lineBreakChar c)).length).length
                  = cs.length + 1 := by
                rw [List.length_drop]
                simp only [List.length_cons]
                have := List.Sublist.length_le
                  (List.IsPrefix.sublist (List.takeWhile_prefix (fun c => !lineBreakChar c)
                    (l := c :: cs)))
                simp only [List.length_cons] at this
                omega
              split
              · rfl
              · rename_i r heq
                have hlr := congrArg List.length heq
                simp only [List.length_cons] at hlr
                rw [ih f₂ r (by omega) (by omega)]
              · rename_i hd r noconf heq
                have hlr := congrArg List.length heq
                simp only [List.length_cons] at hlr
                rw [ih f₂ r (by omega) (by omega)]

theorem splitlinesX_eq (x : Nat) (s : List Char) : splitlinesX x s = splitlines s :=
  splitlinesAux_fuel_eq (s.length + x) s.length s (by omega) le_rfl

theorem add_target_mzX_eq (x : Nat) (h : List Char) :
    add_target_mzX x h = add_target_mz h := by
  unfold add_target_mzX add_target_mz
  rw [splitlinesX_eq]

theorem ensure_header_has_target_mzX_eq (x : Nat) (s : List Char) :
    ensure_header_has_target_mzX x s = ensure_header_has_target_mz s := by
  unfold ensure_header_has_target_mzX ensure_header_has_target_mz
  cases hfh : findHeader s with
  | none => rfl
  | some p => simp only [add_target_mzX_eq]

theorem colorSubX_eq (x : Nat) (e : ColorRule) (s : List Char) :
    colorSubX x e s = colorSub e s :=
  scanSub_fuel_eq _ (colorTryOf_consuming e) _ _ none s (by omega) le_rfl

theorem colorStageX_eq (x : Nat) :
    ∀ (es : List ColorRule) (acc : List Char × List (List Char)),
      colorStageX x es acc = colorStage es acc := by
  intro es
  induction es with
  | nil => intro acc; rfl
  | cons e es ih =>
      intro acc
      simp only [colorStageX, colorStage, colorSubX_eq, ih]

theorem replace_colorsX_eq (x : Nat) (keep : Bool) (s : List Char) :
    replace_colorsX x keep s = replace_colors keep s := by
  unfold replace_colorsX replace_colors
  rw [colorStageX_eq]

theorem wbSubOnceX_eq (x : Nat) (m s : List Char) : wbSubOnceX x m s = wbSubOnce m s := by
  unfold wbSubOnceX wbSubOnce
  rw [scanSub_fuel_eq _ (wbTry_consuming m) _ s.length none s (by omega) le_rfl]

theorem wbStageX_eq (x : Nat) :
    ∀ (ms : List (List Char)) (acc : List Char × List (List Char)),
      wbStageX x ms acc = wbStage ms acc := by
  intro ms
  induction ms with
  | nil => intro acc; rfl
  | cons m ms ih =>
      intro acc
      simp only [wbStageX, wbStage, wbSubOnceX_eq, ih]

theorem replace_window_base_methodsX_eq (x : Nat) (s : List Char) :
    replace_window_base_methodsX x s = replace_window_base_methods s := by
  unfold replace_window_base_methodsX replace_window_base_methods
  rw [wbStageX_eq]

theorem pcStageX_eq (x : Nat) :
    ∀ (sigs : List (List Char)), (∀ sig ∈ sigs, sig ≠ []) →
      ∀ acc : List Char × List (List Char), pcStageX x sigs acc = pcStage sigs acc := by
  intro sigs
  induction sigs with
  | nil => intro _ acc; rfl
  | cons sig sigs ih =>
      intro hne acc
      have h1 : sig ≠ [] := hne sig (by simp)
      have h2 := ih (fun g hg => hne g (by simp [hg]))
      have hcons : Consuming (pcTryOf sig) := litTry_consuming sig (todoStr ++ sig) h1
      simp only [pcStageX, pcStage, h2]
      rw [scanSub_fuel_eq _ hcons (acc.1.length + x) acc.1.length none acc.1 (by omega) le_rfl]

theorem annotate_plugin_command_todosX_eq (x : Nat) (s : List Char) :
    annotate_plugin_command_todosX x s = annotate_plugin_command_todos s := by
  unfold annotate_plugin_command_todosX annotate_plugin_command_todos
  exact pcStageX_eq x MV_PLUGIN_COMMAND_SIGNS (by decide) (s, [])

/-! ### Stage no-op lemmas -/

theorem wbStage_no_match (s : List Char) :
    ∀ (ms : List (List Char)), (∀ m ∈ ms, wbSearch m s = false) →
      ∀ r, wbStage ms (s, r) = (s, r) := by
  intro ms
  induction ms with
  | nil => intro _ r; rfl
  | cons m ms ih =>
      intro h r
      have h1 : wbSearch m s = false := h m (by simp)
      simp only [wbStage, h1]
      exact ih (fun g hg => h g (by simp [hg])) r

theorem colorStage_no_match (s : List Char) :
    ∀ (es : List ColorRule), (∀ e ∈ es, hasMatchSub (colorTryOf e) none s = false) →
      ∀ r, colorStage es (s, r) = (s, r) := by
  intro es
  induction es with
  | nil => intro _ r; rfl
  | cons e es ih =>
      intro h r
      have h1 : colorSub e s = (s, []) := by
        unfold colorSub
        exact scanSub_of_not_hasMatch _ _ _ _ (h e (by simp))
      simp only [colorStage, h1, List.length_nil, Nat.lt_irrefl, if_false]
      exact ih (fun g hg => h g (by simp [hg])) r

theorem pcStage_no_match (s : List Char) :
    ∀ (sigs : List (List Char)), (∀ sig ∈ sigs, hasMatchSub (pcTryOf sig) none s = false) →
      ∀ r, pcStage sigs (s, r) = (s, r) := by
  intro sigs
  induction sigs with
  | nil => intro _ r; rfl
  | cons sig sigs ih =>
      intro h r
      have h1 : hasMatchSub (pcTryOf sig) none s = false := h sig (by simp)
      simp only [pcStage, h1]
      exact ih (fun g hg => h g (by simp [hg])) r

theorem ensure_no_op (s : List Char) (h : headerNeedsNothing s = true) :
    ensure_header_has_target_mz s = (s, false) := by
  unfold headerNeedsNothing at h
  unfold ensure_header_has_target_mz
  cases hfh : findHeader s with
  | none => rfl
  | some p =>
      obtain ⟨i, len⟩ := p
      have hH : headerOf s = some ((s.drop i).take len) := by
        unfold headerOf; rw [hfh]; rfl
      rw [hH] at h
      have h2 : containsSub targetMark ((s.drop i).take len) = true := h
      have heq : add_target_mz ((s.drop i).take len) = (s.drop i).take len := by
        unfold add_target_mz; rw [h2]; simp
      simp [heq]

/-! ### Claim theorems: frame, purity and totality -/

/-- C6: when the skip flag is set, the call-pattern substitution stage
returns its input unchanged with an empty change list, so convert is the
composition of the other three stages alone and the report carries no
call-pattern substitution lines. -/
theorem c6_skip_flag (s : List Char) :
    replace_colors true s = (s, []) ∧
    convert_text true s =
      ((annotate_plugin_command_todos
          (replace_window_base_methods (ensure_header_has_target_mz s).1).1).1,
        (if (ensure_header_has_target_mz s).2 then [headerLine] else []) ++
          ((replace_window_base_methods (ensure_header_has_target_mz s).1).2 ++
            (annotate_plugin_command_todos
              (replace_window_base_methods (ensure_header_has_target_mz s).1).1).2)) := by
  constructor
  · rfl
  · unfold convert_text
    simp [replace_colors]

/-- C9: conversion is a pure function of the input text and flag: a batch of
conversions is exactly the list of independent per-input results, so no
state flows between invocations, and two runs on the same input with the
same flag give identical output text and report. -/
theorem c9_pure (s : List Char) :
    (∀ (pre : List (Bool × List Char)) (f : Bool) (post : List (Bool × List Char)),
      runBatch (pre ++ (f, s) :: post) = runBatch pre ++ convert_text f s :: runBatch post) ∧
    (∀ (f₁ f₂ : Bool) (s₂ : List Char), f₁ = f₂ → s = s₂ →
      convert_text f₁ s = convert_text f₂ s₂) := by
  constructor
  · intro pre f post
    unfold runBatch
    simp
  · intro f₁ f₂ s₂ hf hs
    rw [hf, hs]

/-- C9 witness: the purity statement applied to a concrete repeated run. -/
theorem c9_pure_witness :
    convert_text false (("this.textColor(1)").data) =
      convert_text false (("this.textColor(1)").data) :=
  (c9_pure (("this.textColor(1)").data)).2 false false _ rfl rfl

/-- C8: the engine is total.  Every bounded recursion in the engine is
insensitive to surplus fuel (the bounds are never hit), for every input and
flag; and a rule whose pattern does not occur is a no-op that keeps the
original text intact for that rule. -/
theorem c8_total (x : Nat) (keep : Bool) (s : List Char) :
    convert_textX x keep s = convert_text keep s ∧
    (∀ m, wbSearch m s = false → scanSub (wbTry m) s.length none s = (s, [])) ∧
    (∀ e : ColorRule, hasMatchSub (colorTryOf e) none s = false → colorSub e s = (s, [])) ∧
    (∀ sig, hasMatchSub (pcTryOf sig) none s = false →
      scanSub (pcTryOf sig) s.length none s = (s, [])) := by
  refine ⟨?_, ?_, ?_, ?_⟩
  · unfold convert_textX convert_text
    simp only [ensure_header_has_target_mzX_eq, replace_window_base_methodsX_eq,
      replace_colorsX_eq, annotate_plugin_command_todosX_eq]
  · intro m hm
    exact scanSub_of_not_hasMatch _ _ _ _ hm
  · intro e he
    unfold colorSub
    exact scanSub_of_not_hasMatch _ _ _ _ he
  · intro sig hsig
    exact scanSub_of_not_hasMatch _ _ _ _ hsig

/-- C8 witness: totality at a concrete input, with the no-op conjuncts
discharged at concrete patterns. -/
theorem c8_total_witness :
    convert_textX 7 false (("/*: x */ this.textColor(1)").data) =
      convert_text false (("/*: x */ this.textColor(1)").data) ∧
    scanSub (wbTry (("drawActorHp").data))
        (("/*: x */ this.textColor(1)").data).length none
        (("/*: x */ this.textColor(1)").data) =
      ((("/*: x */ this.textColor(1)").data), []) := by
  refine ⟨(c8_total 7 false _).1, (c8_total 7 false _).2.1 _ ?_⟩
  decide

/-- C7: an input in which none of the recognized patterns occur (no header
block lacking the target marker, no symbol-migration pattern, no color
pattern, no pluginCommand pattern) is returned unchanged with an empty
report; in particular this holds for the empty document. -/
theorem c7_no_patterns (keep : Bool) (s : List Char)
    (hh : headerNeedsNothing s = true)
    (hw : ∀ m ∈ WINDOW_BASE_TO_STATUSBASE_METHODS, wbSearch m s = false)
    (hc : ∀ e ∈ COLOR_REPLACEMENTS, hasMatchSub (colorTryOf e) none s = false)
    (hp : ∀ sig ∈ MV_PLUGIN_COMMAND_SIGNS, hasMatchSub (pcTryOf sig) none s = false) :
    convert_text keep s = (s, []) := by
  have h1 := ensure_no_op s hh
  have h2 : replace_window_base_methods s = (s, []) := by
    unfold replace_window_base_methods
    exact wbStage_no_match s _ hw []
  have h3 : replace_colors keep s = (s, []) := by
    cases keep with
    | true => rfl
    | false =>
        unfold replace_colors
        simp only [if_false, Bool.false_eq_true]
        exact colorStage_no_match s _ hc []
  have h4 : annotate_plugin_command_todos s = (s, []) := by
    unfold annotate_plugin_command_todos
    exact pcStage_no_match s _ hp []
  unfold convert_text
  rw [h1]
  simp only [h2, h3, h4]
  rfl

/-- C7 witness: the empty document is returned unchanged with an empty
report. -/
theorem c7_no_patterns_witness : convert_text false [] = ([], []) :=
  c7_no_patterns false [] (by decide) (by decide) (by decide) (by decide)

/-! ### The annotation stage only inserts -/

theorem litTry_insert_shape (pat ins : List Char) :
    ∀ (prev : Option Char) (s e r : List Char) (lc : Char),
      litTry pat (ins ++ pat) prev s = some (e, r, lc) →
      ∃ u, s = u ++ r ∧ e = ins ++ u := by
  intro prev s e r lc h
  simp only [litTry] at h
  split at h
  · rename_i hcond
    rw [Bool.and_assoc, Bool.and_eq_true, Bool.and_eq_true] at hcond
    obtain ⟨-, hpre, -⟩ := hcond
    cases h
    refine ⟨pat, ?_, rfl⟩
    have hp := List.isPrefixOf_iff_prefix.mp hpre
    have ht : s.take pat.length = pat := (List.prefix_iff_eq_take.mp hp).symm
    conv_lhs => rw [← List.take_append_drop pat.length s]
    rw [ht]
  · simp at h

/-- Every emission of a literal substitution is the fixed replacement. -/
theorem scanSub_litTry_hits (pat rep : List Char) :
    ∀ (fuel : Nat) (prev : Option Char) (s : List Char),
      ∀ h ∈ (scanSub (litTry pat rep) fuel prev s).2, h = rep := by
  intro fuel
  induction fuel with
  | zero => intro prev s h hm; rw [scanSub_zero] at hm; simp at hm
  | succ fuel ih =>
      intro prev s h hm
      cases s with
      | nil => rw [scanSub_nil] at hm; simp at hm
      | cons c cs =>
          cases ht : litTry pat rep prev (c :: cs) with
          | some v =>
              obtain ⟨e, r, lc⟩ := v
              have he : e = rep := by
                simp only [litTry] at ht
                split at ht
                · cases ht; rfl
                · simp at ht
              rw [scanSub_cons_some _ fuel prev c cs e r lc ht] at hm
              simp only [List.mem_cons] at hm
              rcases hm with hm | hm
              · rw [hm, he]
              · exact ih (some lc) r h hm
          | none =>
              rw [scanSub_cons_none _ fuel prev c cs ht] at hm
              exact ih (some c) cs h hm

theorem todoStr_pcLit_ne_nil : todoStr ++ pcLit ≠ [] := by decide

/-- C5: the annotation stage only inserts.  For each catalog entry the
substitution keeps the input as a subsequence of the output (pure
insertion), grows the text by exactly one copy of the annotation per match,
every emission is the annotation immediately followed by the untouched
occurrence, and the output contains at least one such annotation-plus-
occurrence block per match; the stage appends exactly one report line when
the pattern occurs, none otherwise, and an input with one occurrence gets
exactly one annotation block in front of it. -/
theorem c5_annotation (s : List Char) :
    (∀ sig ∈ MV_PLUGIN_COMMAND_SIGNS,
      List.Sublist s (scanSub (pcTryOf sig) s.length none s).1 ∧
      (scanSub (pcTryOf sig) s.length none s).1.length =
        s.length + todoStr.length * (scanSub (pcTryOf sig) s.length none s).2.length ∧
      (∀ h ∈ (scanSub (pcTryOf sig) s.length none s).2, h = todoStr ++ sig) ∧
      (scanSub (pcTryOf sig) s.length none s).2.length ≤
        countOcc (todoStr ++ sig) (scanSub (pcTryOf sig) s.length none s).1) ∧
    (annotate_plugin_command_todos s).2 =
      (if hasMatchSub (pcTryOf pcLit) none s then [pcLine] else []) ∧
    (hasMatchSub (pcTryOf pcLit) none s = false →
      annotate_plugin_command_todos s = (s, [])) ∧
    annotate_plugin_command_todos
        (("Game_Interpreter.prototype.pluginCommand = function(command, args) \x7b\x7d;").data) =
      (todoStr ++
        (("Game_Interpreter.prototype.pluginCommand = function(command, args) \x7b\x7d;").data),
        [pcLine]) := by
  refine ⟨?_, ?_, ?_, ?_⟩
  · intro sig hsig
    have hins := litTry_insert_shape sig todoStr
    have h1 := scanSub_insert_only (pcTryOf sig) todoStr hins s.length none s
    have h2 := scanSub_litTry_hits sig (todoStr ++ sig) s.length none s
    have hmem : sig = pcLit := by
      simp only [MV_PLUGIN_COMMAND_SIGNS, List.mem_singleton] at hsig
      exact hsig
    have hne : todoStr ++ sig ≠ [] := by rw [hmem]; exact todoStr_pcLit_ne_nil
    exact ⟨h1.1, h1.2, h2, hits_le_countOcc (pcTryOf sig) (todoStr ++ sig) hne s.length none s h2⟩
  · unfold annotate_plugin_command_todos MV_PLUGIN_COMMAND_SIGNS pcStage
    cases hm : hasMatchSub (pcTryOf pcLit) none s with
    | true => simp [hm, pcStage]
    | false => simp [hm, pcStage]
  · intro hm
    unfold annotate_plugin_command_todos MV_PLUGIN_COMMAND_SIGNS pcStage
    simp [hm, pcStage]
  · rfl

/-- C5 witness: the insertion facts instantiated at the scenario input and
the catalog entry. -/
theorem c5_annotation_witness :
    List.Sublist
      (("Game_Interpreter.prototype.pluginCommand = function(command, args) \x7b\x7d;").data)
      (scanSub (pcTryOf pcLit)
        (("Game_Interpreter.prototype.pluginCommand = function(command, args) \x7b\x7d;").data).length
        none
        (("Game_Interpreter.prototype.pluginCommand = function(command, args) \x7b\x7d;").data)).1 :=
  (( c5_annotation
    (("Game_Interpreter.prototype.pluginCommand = function(command, args) \x7b\x7d;").data)).1
    pcLit (by decide)).1

/-! ### The color-substitution stage and its report -/

theorem prefix_split (p a b : List Char) (h : p <+: a ++ b) : p <+: a ∨ a <+: p := by
  have hp := List.prefix_iff_eq_take.mp h
  rcases le_or_lt p.length a.length with hl | hl
  · left
    have h2 : p = a.take p.length := by
      conv_lhs => rw [hp]
      exact List.take_append_of_le_length hl
    rw [h2]
    exact List.take_prefix _ _
  · right
    rw [List.prefix_iff_eq_take]
    conv_rhs => rw [hp]
    rw [List.take_take, min_eq_left (le_of_lt hl), List.take_left]

theorem isLineFor_colorLine_self (e : ColorRule) (n : Nat) :
    isLineFor e (colorLine e n) = true := by
  unfold isLineFor colorLine
  rw [List.isPrefixOf_iff_prefix]
  exact ⟨replStr e ++ (" (").data ++ (toString n).data ++ ("x)").data,
    by simp [List.append_assoc]⟩

theorem isLineFor_colorLine_other (e eP : ColorRule)
    (h1 : ¬ patStr e <+: patStr eP) (h2 : ¬ patStr eP <+: patStr e) (n : Nat) :
    isLineFor e (colorLine eP n) = false := by
  rw [Bool.eq_false_iff]
  intro hc
  unfold isLineFor at hc
  have hp : (patStr e ++ arrowStr) <+: colorLine eP n := List.isPrefixOf_iff_prefix.mp hc
  have hp2 : patStr e <+: colorLine eP n :=
    (List.prefix_append (patStr e) arrowStr).trans hp
  unfold colorLine at hp2
  simp only [List.append_assoc] at hp2
  rcases prefix_split (patStr e) (patStr eP) _ hp2 with h | h
  · exact h1 h
  · exact h2 h

theorem color_pat_prefix_free :
    ∀ e ∈ COLOR_REPLACEMENTS, ∀ eP ∈ COLOR_REPLACEMENTS,
      e = eP ∨ ((patStr e).isPrefixOf (patStr eP) = false ∧
                (patStr eP).isPrefixOf (patStr e) = false) := by decide

theorem colorEmission_ne_nil (e : ColorRule) (x : List Char) : colorEmission e x ≠ [] := by
  intro h
  have := congrArg List.length h
  cases e <;> simp [colorEmission, colorMgrDot] at this

theorem colorStage_cons (e : ColorRule) (es : List ColorRule) (t : List Char)
    (r : List (List Char)) :
    colorStage (e :: es) (t, r) =
      colorStage es (if 0 < (colorSub e t).2.length
        then ((colorSub e t).1, r ++ [colorLine e (colorSub e t).2.length]) else (t, r)) := rfl

theorem wbStage_cons (m : List Char) (ms : List (List Char)) (t : List Char)
    (r : List (List Char)) :
    wbStage (m :: ms) (t, r) =
      wbStage ms (if wbSearch m t then (wbSubOnce m t, r ++ [wbLine m]) else (t, r)) := rfl

theorem pcStage_cons (sig : List Char) (sigs : List (List Char)) (t : List Char)
    (r : List (List Char)) :
    pcStage (sig :: sigs) (t, r) =
      pcStage sigs (if hasMatchSub (pcTryOf sig) none t
        then ((scanSub (pcTryOf sig) t.length none t).1, r ++ [pcLine]) else (t, r)) := rfl

theorem colorStage_mem (es : List ColorRule) :
    ∀ (t : List Char) (r : List (List Char)), ∀ l ∈ (colorStage es (t, r)).2,
      l ∈ r ∨ ∃ eP ∈ es, ∃ n, 0 < n ∧ l = colorLine eP n := by
  induction es with
  | nil => intro t r l hl; exact Or.inl hl
  | cons e es ih =>
      intro t r l hl
      rw [colorStage_cons] at hl
      by_cases hf : 0 < (colorSub e t).2.length
      · rw [if_pos hf] at hl
        rcases ih _ _ l hl with hm | ⟨eP, hmem, n, hn, heq⟩
        · rcases List.mem_append.mp hm with hm2 | hm2
          · exact Or.inl hm2
          · right
            refine ⟨e, by simp, (colorSub e t).2.length, hf, ?_⟩
            simpa using hm2
        · exact Or.inr ⟨eP, by simp [hmem], n, hn, heq⟩
      · rw [if_neg hf] at hl
        rcases ih _ _ l hl with hm | ⟨eP, hmem, n, hn, heq⟩
        · exact Or.inl hm
        · exact Or.inr ⟨eP, by simp [hmem], n, hn, heq⟩

theorem colorStage_countP (e : ColorRule) :
    ∀ (es : List ColorRule), es.Nodup →
      (∀ eP ∈ es, e ≠ eP → ∀ n, isLineFor e (colorLine eP n) = false) →
      ∀ (t : List Char) (r : List (List Char)),
        (colorStage es (t, r)).2.countP (fun l => isLineFor e l) ≤
          r.countP (fun l => isLineFor e l) + (if e ∈ es then 1 else 0) := by
  intro es
  induction es with
  | nil => intro _ _ t r; simp [colorStage]
  | cons eh es ih =>
      intro hnd hother t r
      have hnd2 : es.Nodup := (List.nodup_cons.mp hnd).2
      have hother2 : ∀ eP ∈ es, e ≠ eP → ∀ n, isLineFor e (colorLine eP n) = false :=
        fun eP hm => hother eP (by simp [hm])
      rw [colorStage_cons]
      by_cases hf : 0 < (colorSub eh t).2.length
      · rw [if_pos hf]
        have hrec := ih hnd2 hother2 (colorSub eh t).1
          (r ++ [colorLine eh (colorSub eh t).2.length])
        have hcount : (r ++ [colorLine eh (colorSub eh t).2.length]).countP
              (fun l => isLineFor e l) =
            r.countP (fun l => isLineFor e l) +
              (if isLineFor e (colorLine eh (colorSub eh t).2.length) then 1 else 0) := by
          simp [List.countP_append, List.countP_cons]
        by_cases hee : e = eh
        · subst hee
          have hnm : e ∉ es := (List.nodup_cons.mp hnd).1
          rw [if_neg hnm] at hrec
          rw [isLineFor_colorLine_self, if_pos rfl] at hcount
          have hmem : e ∈ e :: es := by simp
          rw [if_pos hmem]
          omega
        · rw [hother eh (by simp) hee _, if_neg (by simp)] at hcount
          by_cases hmem : e ∈ es
          · rw [if_pos hmem] at hrec
            rw [if_pos (by simp [hmem])]
            omega
          · rw [if_neg hmem] at hrec
            have : e ∉ eh :: es := by
              simp only [List.mem_cons, not_or]
              exact ⟨hee, hmem⟩
            rw [if_neg this]
            omega
      · rw [if_neg hf]
        have hrec := ih hnd2 hother2 t r
        by_cases hmem : e ∈ es
        · rw [if_pos hmem] at hrec
          rw [if_pos (by simp [hmem])]
          omega
        · rw [if_neg hmem] at hrec
          by_cases hee : e = eh
          · rw [if_pos (by simp [hee])]
            omega
          · rw [if_neg (by simp only [List.mem_cons, not_or]; exact ⟨hee, hmem⟩)]
            omega

theorem COLOR_REPLACEMENTS_nodup : COLOR_REPLACEMENTS.Nodup := by decide

theorem colorSub_fst_of_len_zero (e : ColorRule) (t : List Char)
    (h : (colorSub e t).2.length = 0) : (colorSub e t).1 = t :=
  scanSub_fst_of_hits_nil (colorTryOf e) t.length none t (List.length_eq_zero.mp h)

theorem colorStage_track (e : ColorRule) :
    ∀ (es : List ColorRule), (∀ eP ∈ es, ∀ n, isLineFor e (colorLine eP n) = false) →
      ∀ (t : List Char) (r : List (List Char)),
        (colorStage es (t, r)).2.countP (fun l => isLineFor e l) =
          r.countP (fun l => isLineFor e l) ∧
        (∀ l ∈ (colorStage es (t, r)).2, isLineFor e l = true → l ∈ r) := by
  intro es
  induction es with
  | nil => intro _ t r; exact ⟨rfl, fun l hl _ => hl⟩
  | cons e₀ es ih =>
      intro hother t r
      have hother' := fun eP hm => hother eP (List.mem_cons_of_mem e₀ hm)
      rw [colorStage_cons]
      by_cases hf : 0 < (colorSub e₀ t).2.length
      · rw [if_pos hf]
        obtain ⟨h1, h2⟩ := ih hother' (colorSub e₀ t).1
          (r ++ [colorLine e₀ (colorSub e₀ t).2.length])
        constructor
        · rw [h1, List.countP_append]
          simp [List.countP_cons, hother e₀ (by simp) ((colorSub e₀ t).2.length)]
        · intro l hl hline
          rcases List.mem_append.mp (h2 l hl hline) with hm | hm
          · exact hm
          · exfalso
            have hly : l = colorLine e₀ (colorSub e₀ t).2.length := by simpa using hm
            rw [hly, hother e₀ (by simp) ((colorSub e₀ t).2.length)] at hline
            cases hline
      · rw [if_neg hf]
        exact ih hother' t r

theorem colorStage_exact (e : ColorRule) :
    ∀ (es : List ColorRule), e ∈ es → es.Nodup →
      (∀ eP ∈ es, e ≠ eP → ∀ n, isLineFor e (colorLine eP n) = false) →
      ∀ (t : List Char) (r : List (List Char)),
        (colorStage es (t, r)).2.countP (fun l => isLineFor e l) =
          r.countP (fun l => isLineFor e l) +
            (if 0 < (colorSub e (colorPre e es t)).2.length then 1 else 0) ∧
        (∀ l ∈ (colorStage es (t, r)).2, isLineFor e l = true →
          l ∈ r ∨ l = colorLine e (colorSub e (colorPre e es t)).2.length) := by
  intro es
  induction es with
  | nil => intro hm; simp at hm
  | cons e₀ es ih =>
      intro hm hnd hother t r
      have hnd' : es.Nodup := (List.nodup_cons.mp hnd).2
      rw [colorStage_cons]
      by_cases hee : e₀ = e
      · subst hee
        have hpre : colorPre e₀ (e₀ :: es) t = t := by
          simp [colorPre]
        have hnin : e₀ ∉ es := (List.nodup_cons.mp hnd).1
        have htr : ∀ eP ∈ es, ∀ n, isLineFor e₀ (colorLine eP n) = false := by
          intro eP hmP n
          exact hother eP (List.mem_cons_of_mem e₀ hmP) (fun he => hnin (he ▸ hmP)) n
        rw [hpre]
        by_cases hf : 0 < (colorSub e₀ t).2.length
        · rw [if_pos hf, if_pos hf]
          obtain ⟨h1, h2⟩ := colorStage_track e₀ es htr (colorSub e₀ t).1
            (r ++ [colorLine e₀ (colorSub e₀ t).2.length])
          constructor
          · rw [h1, List.countP_append]
            simp [List.countP_cons, isLineFor_colorLine_self]
          · intro l hl hline
            rcases List.mem_append.mp (h2 l hl hline) with hmm | hmm
            · exact Or.inl hmm
            · exact Or.inr (by simpa using hmm)
        · rw [if_neg hf, if_neg hf]
          obtain ⟨h1, h2⟩ := colorStage_track e₀ es htr t r
          exact ⟨by rw [h1, Nat.add_zero], fun l hl hline => Or.inl (h2 l hl hline)⟩
      · have hm' : e ∈ es := by
          rcases List.mem_cons.mp hm with h | h
          · exact absurd h.symm hee
          · exact h
        have hne : e ≠ e₀ := fun h => hee h.symm
        have hother' := fun eP hmP hneP => hother eP (List.mem_cons_of_mem e₀ hmP) hneP
        have hpre : colorPre e (e₀ :: es) t = colorPre e es (colorSub e₀ t).1 := by
          simp [colorPre, hee]
        rw [hpre]
        by_cases hf : 0 < (colorSub e₀ t).2.length
        · rw [if_pos hf]
          obtain ⟨h1, h2⟩ := ih hm' hnd' hother' (colorSub e₀ t).1
            (r ++ [colorLine e₀ (colorSub e₀ t).2.length])
          constructor
          · rw [h1, List.countP_append]
            simp [List.countP_cons, hother e₀ (by simp) hne ((colorSub e₀ t).2.length)]
          · intro l hl hline
            rcases h2 l hl hline with hmm | hmm
            · rcases List.mem_append.mp hmm with hmm2 | hmm2
              · exact Or.inl hmm2
              · exfalso
                have hly : l = colorLine e₀ (colorSub e₀ t).2.length := by simpa using hmm2
                rw [hly, hother e₀ (by simp) hne ((colorSub e₀ t).2.length)] at hline
                cases hline
            · exact Or.inr hmm
        · rw [if_neg hf]
          have ht0 : (colorSub e₀ t).1 = t := colorSub_fst_of_len_zero e₀ t (by omega)
          rw [ht0]
          exact ih hm' hnd' hother' t r

/-- C1 (amended): for any color entry, if the scan of a text finds N
matches all with captured argument x, the result of that entry substitution
contains at least N occurrences of the replacement form with x preserved
verbatim, and an entry with no match leaves the text unchanged; the stage
processes entries in catalog order and, for every entry, the report carries
exactly one line when the entry matches at least once in the text as it
stands when the entry is reached and no line at all when it matches zero
times there, every line attributed to the entry being the entry regex, an
arrow, the replacement template, and exactly the entry's match count; and
input this.textColor(1) yields ColorManager.textColor(1) with the single
report line counting (1x). -/
theorem c1_color_substitution :
    (∀ (e : ColorRule) (s x : List Char),
      ((∀ h ∈ (colorSub e s).2, h = colorEmission e x) →
        (colorSub e s).2.length ≤ countOcc (colorEmission e x) (colorSub e s).1) ∧
      ((colorSub e s).2 = [] → (colorSub e s).1 = s)) ∧
    (∀ (s : List Char), ∀ e ∈ COLOR_REPLACEMENTS,
      (replace_colors false s).2.countP (fun l => isLineFor e l) =
        (if 0 < (colorSub e (colorPre e COLOR_REPLACEMENTS s)).2.length then 1 else 0) ∧
      (∀ l ∈ (replace_colors false s).2, isLineFor e l = true →
        l = colorLine e (colorSub e (colorPre e COLOR_REPLACEMENTS s)).2.length ∧
          0 < (colorSub e (colorPre e COLOR_REPLACEMENTS s)).2.length)) ∧
    replace_colors false (("this.textColor(1)").data) =
      ((("ColorManager.textColor(1)").data),
        [colorLine (.withArg (("textColor").data)) 1]) := by
  refine ⟨?_, ?_, ?_⟩
  · intro e s x
    constructor
    · intro hall
      exact hits_le_countOcc (colorTryOf e) (colorEmission e x)
        (colorEmission_ne_nil e x) s.length none s hall
    · intro hnil
      exact scanSub_fst_of_hits_nil (colorTryOf e) s.length none s hnil
  · intro s e hmem
    have hother : ∀ eP ∈ COLOR_REPLACEMENTS, e ≠ eP →
        ∀ n, isLineFor e (colorLine eP n) = false := by
      intro eP hP hne n
      rcases color_pat_prefix_free e hmem eP hP with h | ⟨h1, h2⟩
      · exact absurd h hne
      · refine isLineFor_colorLine_other e eP ?_ ?_ n
        · intro hc
          rw [← List.isPrefixOf_iff_prefix] at hc
          rw [h1] at hc
          cases hc
        · intro hc
          rw [← List.isPrefixOf_iff_prefix] at hc
          rw [h2] at hc
          cases hc
    obtain ⟨h1, h2⟩ := colorStage_exact e COLOR_REPLACEMENTS hmem
      COLOR_REPLACEMENTS_nodup hother s []
    constructor
    · unfold replace_colors
      simp only [Bool.false_eq_true, if_false]
      rw [h1]
      simp
    · intro l hl hline
      unfold replace_colors at hl
      simp only [Bool.false_eq_true, if_false] at hl
      have hnum : 0 < (colorSub e (colorPre e COLOR_REPLACEMENTS s)).2.length := by
        have hpos : 0 < (colorStage COLOR_REPLACEMENTS (s, [])).2.countP
            (fun l => isLineFor e l) :=
          List.countP_pos_iff.mpr ⟨l, hl, hline⟩
        rw [h1] at hpos
        by_cases h : 0 < (colorSub e (colorPre e COLOR_REPLACEMENTS s)).2.length
        · exact h
        · rw [if_neg h] at hpos
          simp at hpos
      rcases h2 l hl hline with hin | heq
      · simp at hin
      · exact ⟨heq, hnum⟩
  · rfl

/-- C1 witness: the general inequality applied to the scenario input at the
textColor entry with argument 1 gives at least one replacement occurrence
in the output, and the exact report-line count instantiated there gives its
one line. -/
theorem c1_color_substitution_witness :
    ((colorSub (.withArg (("textColor").data)) (("this.textColor(1)").data)).2.length ≤
      countOcc (colorEmission (.withArg (("textColor").data)) (("1").data))
        (colorSub (.withArg (("textColor").data)) (("this.textColor(1)").data)).1) ∧
    (replace_colors false (("this.textColor(1)").data)).2.countP
        (fun l => isLineFor (.withArg (("textColor").data)) l) =
      (if 0 < (colorSub (.withArg (("textColor").data))
          (colorPre (.withArg (("textColor").data)) COLOR_REPLACEMENTS
            (("this.textColor(1)").data))).2.length then 1 else 0) :=
  ⟨((c1_color_substitution.1 (.withArg (("textColor").data))
      (("this.textColor(1)").data) (("1").data)).1 (by decide)),
   (c1_color_substitution.2.1 (("this.textColor(1)").data)
      (.withArg (("textColor").data)) (by decide)).1⟩

/-- C1 counterexample: the input already contains the replacement form, the
textColor entry matches exactly once with argument 1, yet the output
contains two occurrences of the replacement form, so (as stated) the output
does not contain exactly N occurrences. -/
theorem c1_color_substitution_counterexample :
    (colorSub (.withArg (("textColor").data))
        (("ColorManager.textColor(1) this.textColor(1)").data)).2 =
      [colorEmission (.withArg (("textColor").data)) (("1").data)] ∧
    countOcc (colorEmission (.withArg (("textColor").data)) (("1").data))
        (colorSub (.withArg (("textColor").data))
          (("ColorManager.textColor(1) this.textColor(1)").data)).1 = 2 ∧
    replace_colors false (("ColorManager.textColor(1) this.textColor(1)").data) =
      ((("ColorManager.textColor(1) ColorManager.textColor(1)").data),
        [colorLine (.withArg (("textColor").data)) 1]) := by
  refine ⟨rfl, ?_, rfl⟩
  decide

/-! ### Header stage behavior at concrete inputs and the target check -/

/-- C4: already-migrated text is not a fixed point of the header stage.
For a single-line header block the first pass splices the marker line in
front of the block instead of inside it, so the second pass finds a header
block still lacking the marker and fires again, contradicting the
documented contract that the marker ends up inside the header block. -/
theorem c4_header_not_idempotent :
    (convert_text false (("/*: x */").data)).1 = ((" * @target MZ\n/*: x */").data) ∧
    (convert_text false (("/*: x */").data)).2 = [headerLine] ∧
    (convert_text false ((convert_text false (("/*: x */").data)).1)).2 = [headerLine] ∧
    (convert_text false ((convert_text false (("/*: x */").data)).1)).1 =
      ((" * @target MZ\n * @target MZ\n/*: x */").data) := by
  refine ⟨rfl, rfl, rfl, rfl⟩

theorem wbStage_mem (ms : List (List Char)) :
    ∀ (t : List Char) (r : List (List Char)), ∀ l ∈ (wbStage ms (t, r)).2,
      l ∈ r ∨ ∃ m ∈ ms, l = wbLine m := by
  induction ms with
  | nil => intro t r l hl; exact Or.inl hl
  | cons m ms ih =>
      intro t r l hl
      rw [wbStage_cons] at hl
      by_cases hf : wbSearch m t = true
      · rw [if_pos hf] at hl
        rcases ih _ _ l hl with hm | ⟨mP, hmem, heq⟩
        · rcases List.mem_append.mp hm with hm2 | hm2
          · exact Or.inl hm2
          · exact Or.inr ⟨m, by simp, by simpa using hm2⟩
        · exact Or.inr ⟨mP, by simp [hmem], heq⟩
      · rw [if_neg hf] at hl
        rcases ih _ _ l hl with hm | ⟨mP, hmem, heq⟩
        · exact Or.inl hm
        · exact Or.inr ⟨mP, by simp [hmem], heq⟩

theorem pcStage_mem (sigs : List (List Char)) :
    ∀ (t : List Char) (r : List (List Char)), ∀ l ∈ (pcStage sigs (t, r)).2,
      l ∈ r ∨ l = pcLine := by
  induction sigs with
  | nil => intro t r l hl; exact Or.inl hl
  | cons sig sigs ih =>
      intro t r l hl
      rw [pcStage_cons] at hl
      by_cases hf : hasMatchSub (pcTryOf sig) none t = true
      · rw [if_pos hf] at hl
        rcases ih _ _ l hl with hm | heq
        · rcases List.mem_append.mp hm with hm2 | hm2
          · exact Or.inl hm2
          · exact Or.inr (by simpa using hm2)
        · exact Or.inr heq
      · rw [if_neg hf] at hl
        rcases ih _ _ l hl with hm | heq
        · exact Or.inl hm
        · exact Or.inr heq

theorem wbLine_ne_headerLine (m : List Char) : wbLine m ≠ headerLine := by
  intro h
  have hh := congrArg List.head? h
  rw [show (wbLine m).head? = some ('W') from rfl] at hh
  rw [show headerLine.head? = some ('A') from rfl] at hh
  simp at hh

theorem colorLine_ne_headerLine (e : ColorRule) (n : Nat) : colorLine e n ≠ headerLine := by
  intro h
  have hh := congrArg List.head? h
  rw [show headerLine.head? = some ('A') from rfl] at hh
  cases e with
  | noArg nm =>
      rw [show (colorLine (.noArg nm) n).head? = some ('\\') from rfl] at hh
      simp at hh
  | withArg nm =>
      rw [show (colorLine (.withArg nm) n).head? = some ('\\') from rfl] at hh
      simp at hh

theorem pcLine_ne_headerLine : pcLine ≠ headerLine := by decide

/-- C10: the header check is substring presence of the target token, not of
the specific target MZ marker: an input whose first header block contains
any target directive is left unchanged by the header stage and convert
emits no header report line for it. -/
theorem c10_any_target_suffices (keep : Bool) (s H : List Char)
    (hH : headerOf s = some H) (ht : containsSub targetMark H = true) :
    ensure_header_has_target_mz s = (s, false) ∧
    headerLine ∉ (convert_text keep s).2 := by
  have hnoop : ensure_header_has_target_mz s = (s, false) := by
    apply ensure_no_op
    unfold headerNeedsNothing
    rw [hH]
    exact ht
  refine ⟨hnoop, ?_⟩
  unfold convert_text
  rw [hnoop]
  simp only [List.nil_append, if_false, Bool.false_eq_true]
  intro hmem
  rw [List.append_assoc] at hmem
  rcases List.mem_append.mp hmem with hmem | hmem
  · rcases wbStage_mem WINDOW_BASE_TO_STATUSBASE_METHODS s [] headerLine hmem with h0 | ⟨m, _, heq⟩
    · simp at h0
    · exact wbLine_ne_headerLine m heq.symm
  · rcases List.mem_append.mp hmem with hmem | hmem
    · cases keep with
      | true => simp [replace_colors] at hmem
      | false =>
          unfold replace_colors at hmem
          simp only [Bool.false_eq_true, if_false] at hmem
          rcases colorStage_mem COLOR_REPLACEMENTS _ [] headerLine hmem with h0 | ⟨e, _, n, _, heq⟩
          · simp at h0
          · exact colorLine_ne_headerLine e n heq.symm
    · rcases pcStage_mem MV_PLUGIN_COMMAND_SIGNS _ [] headerLine hmem with h0 | heq
      · simp at h0
      · exact pcLine_ne_headerLine heq.symm

/-- C10 witness: a header block carrying target MV is left unchanged and
the report carries no header line. -/
theorem c10_any_target_suffices_witness :
    ensure_header_has_target_mz (("/*:\n * @target MV\n */").data) =
      ((("/*:\n * @target MV\n */").data), false) ∧
    headerLine ∉ (convert_text false (("/*:\n * @target MV\n */").data)).2 :=
  c10_any_target_suffices false (("/*:\n * @target MV\n */").data)
    (("/*:\n * @target MV\n */").data) rfl (by decide)

/-! ### Substring search characterization -/

theorem findSubIdx_some_prefix (p : List Char) :
    ∀ (s : List Char) (i : Nat), findSubIdx p s = some i → p <+: s.drop i := by
  intro s
  induction s with
  | nil =>
      intro i h
      unfold findSubIdx at h
      split at h
      · rename_i he
        cases h
        cases p with
        | nil => exact ⟨[], rfl⟩
        | cons d q => simp at he
      · cases h
  | cons c cs ih =>
      intro i h
      unfold findSubIdx at h
      split at h
      · rename_i hp
        cases h
        exact List.isPrefixOf_iff_prefix.mp hp
      · rcases ho : findSubIdx p cs with _ | j
        · rw [ho] at h; cases h
        · rw [ho] at h
          simp at h
          subst h
          exact ih j ho

theorem findSubIdx_isSome_of_decomp (p : List Char) :
    ∀ (a b : List Char), (findSubIdx p (a ++ p ++ b)).isSome = true := by
  intro a
  induction a with
  | nil =>
      intro b
      cases p with
      | nil => cases b <;> rfl
      | cons d q =>
          have hpre : (d :: q).isPrefixOf ((d :: q) ++ b) = true := by
            rw [List.isPrefixOf_iff_prefix]
            exact ⟨b, by simp⟩
          simp only [List.nil_append, List.cons_append]
          unfold findSubIdx
          rw [show (d :: q) ++ b = d :: (q ++ b) from rfl] at hpre
          rw [hpre]
          rfl
  | cons c a ih =>
      intro b
      simp only [List.cons_append]
      unfold findSubIdx
      split
      · rfl
      · have hih := ih b
        simp only [List.append_assoc] at hih ⊢
        cases ho : findSubIdx p (a ++ (p ++ b)) with
        | none => rw [ho] at hih; cases hih
        | some j => rfl

/-- Substring containment holds exactly when a decomposition exists. -/
theorem containsSub_spec (p s : List Char) :
    containsSub p s = true ↔ ∃ a b, s = a ++ p ++ b := by
  constructor
  · intro h
    unfold containsSub at h
    rcases ho : findSubIdx p s with _ | i
    · rw [ho] at h; cases h
    · have hpre := findSubIdx_some_prefix p s i ho
      obtain ⟨b, hb⟩ := hpre
      refine ⟨s.take i, b, ?_⟩
      conv_lhs => rw [← List.take_append_drop i s]
      rw [← hb, List.append_assoc]
  · rintro ⟨a, b, rfl⟩
    unfold containsSub
    exact findSubIdx_isSome_of_decomp p a b

theorem containsSub_of_prefix_contains (p q s : List Char) (hpq : p <+: q)
    (h : containsSub q s = true) : containsSub p s = true := by
  rcases (containsSub_spec q s).mp h with ⟨a, b, rfl⟩
  obtain ⟨t, ht⟩ := hpq
  rw [containsSub_spec]
  exact ⟨a, t ++ b, by rw [← ht]; simp [List.append_assoc]⟩

theorem containsSub_of_infix (p l a b : List Char) (h : containsSub p l = true) :
    containsSub p (a ++ l ++ b) = true := by
  rcases (containsSub_spec p l).mp h with ⟨u, v, rfl⟩
  rw [containsSub_spec]
  exact ⟨a ++ u, v ++ b, by simp [List.append_assoc]⟩

theorem joinNL_decomp (l : List Char) :
    ∀ (ls : List (List Char)), l ∈ ls → ∃ a b, joinNL ls = a ++ l ++ b := by
  intro ls
  induction ls with
  | nil => intro h; simp at h
  | cons x xs ih =>
      intro h
      rcases List.mem_cons.mp h with h | h
      · subst h
        cases xs with
        | nil => exact ⟨[], [], by simp [joinNL]⟩
        | cons y ys => exact ⟨[], '\n' :: joinNL (y :: ys), by simp [joinNL]⟩
      · obtain ⟨a, b, hab⟩ := ih h
        cases xs with
        | nil => simp at h
        | cons y ys =>
            refine ⟨x ++ '\n' :: a, b, ?_⟩
            rw [show joinNL (x :: y :: ys) = x ++ '\n' :: joinNL (y :: ys) from rfl, hab]
            simp [List.append_assoc]

theorem marker_in_joinNL_insert (idx : Nat) (ls : List (List Char)) :
    containsSub targetMark (joinNL (insertAt idx markerLine ls)) = true := by
  have hmem : markerLine ∈ insertAt idx markerLine ls := by
    unfold insertAt
    simp
  obtain ⟨a, b, hab⟩ := joinNL_decomp markerLine _ hmem
  rw [hab, show markerLine = (" * ").data ++ targetMark ++ (" MZ").data from rfl]
  have : a ++ ((" * ").data ++ targetMark ++ (" MZ").data) ++ b =
      (a ++ (" * ").data) ++ targetMark ++ ((" MZ").data ++ b) := by
    simp [List.append_assoc]
  rw [this, containsSub_spec]
  exact ⟨a ++ (" * ").data, (" MZ").data ++ b, rfl⟩

/-- The header-block match starts with the open marker and ends with the
close marker. -/
theorem header_shape (s : List Char) (i len : Nat) (h : findHeader s = some (i, len)) :
    headerOpen <+: (s.drop i).take len ∧ headerClose <:+ (s.drop i).take len := by
  unfold findHeader at h
  split at h
  · cases h
  · rename_i i0 ho
    split at h
    · cases h
    · rename_i j hc
      simp only [Option.some.injEq, Prod.mk.injEq] at h
      obtain ⟨h1, h2⟩ := h
      rw [← h1, ← h2]
      have hopre : headerOpen <+: s.drop i0 := findSubIdx_some_prefix _ _ _ ho
      have hcpre : headerClose <+: ((s.drop i0).drop 3).drop j := findSubIdx_some_prefix _ _ _ hc
      constructor
      · have hol : headerOpen.length = 3 := rfl
        have h3 := List.prefix_iff_eq_take.mp hopre
        rw [hol] at h3
        have h4 : headerOpen = ((s.drop i0).take (3 + j + 2)).take 3 := by
          rw [List.take_take, min_eq_left (by omega : (3 : Nat) ≤ 3 + j + 2), ← h3]
        rw [h4]
        exact List.take_prefix _ _
      · have hdd : ((s.drop i0).drop 3).drop j = (s.drop i0).drop (3 + j) := by
          rw [List.drop_drop, Nat.add_comm 3 j]
        rw [hdd] at hcpre
        have hcl : headerClose.length = 2 := rfl
        have h2t := List.prefix_iff_eq_take.mp hcpre
        rw [hcl] at h2t
        have htake : (s.drop i0).take (3 + j + 2) =
            (s.drop i0).take (3 + j) ++ ((s.drop i0).drop (3 + j)).take 2 := by
          rw [← List.take_add]
        rw [htake, ← h2t]
        exact ⟨(s.drop i0).take (3 + j), rfl⟩

/-! ### splitlines structure -/

theorem takeWhile_all (p : Char → Bool) :
    ∀ (l : List Char), (∀ c ∈ l, p c = true) → l.takeWhile p = l := by
  intro l
  induction l with
  | nil => intro _; rfl
  | cons c cs ih =>
      intro h
      rw [List.takeWhile_cons, if_pos (h c (by simp)), ih (fun d hd => h d (by simp [hd]))]

theorem takeWhile_append_stop (p : Char → Bool) (d : Char) (r : List Char) (hd : p d = false) :
    ∀ (l : List Char), (∀ c ∈ l, p c = true) → (l ++ d :: r).takeWhile p = l := by
  intro l
  induction l with
  | nil => simp [List.takeWhile_cons, hd]
  | cons c cs ih =>
      intro h
      rw [List.cons_append, List.takeWhile_cons, if_pos (h c (by simp)),
        ih (fun e he => h e (by simp [he]))]

theorem drop_takeWhile_length (p : Char → Bool) :
    ∀ (s : List Char), s.drop (s.takeWhile p).length = s.dropWhile p := by
  intro s
  induction s with
  | nil => rfl
  | cons c cs ih =>
      rw [List.takeWhile_cons, List.dropWhile_cons]
      by_cases h : p c = true
      · rw [if_pos h, if_pos h]
        simpa using ih
      · rw [if_neg h, if_neg h]
        rfl

theorem dropWhile_head_false (p : Char → Bool) :
    ∀ (s : List Char) (d : Char) (r : List Char), s.dropWhile p = d :: r → p d = false := by
  intro s
  induction s with
  | nil => intro d r h; cases h
  | cons c cs ih =>
      intro d r h
      rw [List.dropWhile_cons] at h
      by_cases hc : p c = true
      · rw [if_pos hc] at h
        exact ih d r h
      · rw [if_neg hc] at h
        cases h
        exact Bool.eq_false_iff.mpr hc

theorem splitlinesAux_ne_nil :
    ∀ (f : Nat) (s : List Char), s ≠ [] → splitlinesAux f s ≠ [] := by
  intro f s hs
  cases s with
  | nil => exact absurd rfl hs
  | cons c cs =>
      cases f with
      | zero =>
          rw [show splitlinesAux 0 (c :: cs) = [c :: cs] from rfl]
          simp
      | succ f =>
          rw [splitlinesAux_succ]
          split <;> simp

theorem splitlinesAux_eq_nil (f : Nat) (s : List Char) (h : splitlinesAux f s = []) :
    s = [] := by
  by_contra hs
  exact splitlinesAux_ne_nil f s hs h

/-- One line plus a newline separator at the front of a split. -/
theorem splitlinesAux_append_newline (l rest : List Char) (f : Nat)
    (hl : ∀ c ∈ l, lineBreakChar c = false) :
    splitlinesAux (f + 1) (l ++ '\n' :: rest) = l :: splitlinesAux f rest := by
  have hl2 : ∀ c ∈ l, (!lineBreakChar c) = true := fun c hc => by rw [hl c hc]; rfl
  have htw : (l ++ '\n' :: rest).takeWhile (fun c => !lineBreakChar c) = l :=
    takeWhile_append_stop _ '\n' rest (by decide) l hl2
  cases hc : l ++ '\n' :: rest with
  | nil => exact absurd hc (by simp)
  | cons c cs =>
      rw [← hc, show l ++ '\n' :: rest = c :: cs from hc, splitlinesAux_succ, ← hc, htw,
        List.drop_left]
      rfl

theorem splitlines_append_newline (l rest : List Char)
    (hl : ∀ c ∈ l, lineBreakChar c = false) :
    splitlines (l ++ '\n' :: rest) = l :: splitlines rest := by
  unfold splitlines
  have hlen : (l ++ '\n' :: rest).length = (l.length + rest.length) + 1 := by
    simp
    omega
  rw [hlen, splitlinesAux_append_newline l rest _ hl,
    splitlinesAux_fuel_eq (l.length + rest.length) rest.length rest (by omega) le_rfl]

theorem splitlines_break_free_single (l : List Char) (hne : l ≠ [])
    (hl : ∀ c ∈ l, lineBreakChar c = false) : splitlines l = [l] := by
  cases l with
  | nil => exact absurd rfl hne
  | cons c cs =>
      unfold splitlines
      simp only [List.length_cons]
      rw [splitlinesAux_succ]
      have htw : (c :: cs).takeWhile (fun c => !lineBreakChar c) = c :: cs :=
        takeWhile_all _ _ (fun d hd => by rw [hl d hd]; rfl)
      rw [htw, List.drop_length]

/-- Joining break-free lines whose last line is nonempty and splitting again
recovers the lines. -/
theorem splitlines_joinNL :
    ∀ (ls : List (List Char)), ls ≠ [] →
      (∀ l ∈ ls, ∀ c ∈ l, lineBreakChar c = false) →
      (∀ ll, ls.getLast? = some ll → ll ≠ []) →
      splitlines (joinNL ls) = ls := by
  intro ls
  induction ls with
  | nil => intro h; exact absurd rfl h
  | cons l ls ih =>
      intro _ hbf hlast
      cases ls with
      | nil =>
          have hj : joinNL [l] = l := rfl
          rw [hj]
          have hl : l ≠ [] := hlast l rfl
          exact splitlines_break_free_single l hl (hbf l (by simp))
      | cons l2 ls2 =>
          rw [show joinNL (l :: l2 :: ls2) = l ++ '\n' :: joinNL (l2 :: ls2) from rfl]
          rw [splitlines_append_newline l _ (hbf l (by simp))]
          rw [ih (by simp) (fun g hg => hbf g (by simp [hg]))
            (fun ll hll => hlast ll (by rw [List.getLast?_cons_cons]; exact hll))]

theorem splitlinesAux_break_free :
    ∀ (f : Nat) (s : List Char), s.length ≤ f →
      ∀ l ∈ splitlinesAux f s, ∀ c ∈ l, lineBreakChar c = false := by
  intro f
  induction f with
  | zero =>
      intro s hs l hl
      have : s = [] := List.eq_nil_of_length_eq_zero (Nat.le_zero.mp hs)
      subst this
      simp [splitlinesAux] at hl
  | succ f ih =>
      intro s hs l hl
      cases s with
      | nil => simp [splitlinesAux] at hl
      | cons c cs =>
          simp only [List.length_cons] at hs
          rw [splitlinesAux_succ] at hl
          have hline : ∀ d ∈ (c :: cs).takeWhile (fun c => !lineBreakChar c),
              lineBreakChar d = false := by
            intro d hd
            have := List.mem_takeWhile_imp hd
            simpa using this
          split at hl
          · simp only [List.mem_singleton] at hl
            subst hl
            exact hline
          · rename_i r heq
            have hlr := congrArg List.length heq
            simp only [List.length_cons, List.length_drop] at hlr
            rcases List.mem_cons.mp hl with hl | hl
            · subst hl; exact hline
            · exact ih r (by omega) l hl
          · rename_i hd0 r noconf heq
            have hlr := congrArg List.length heq
            simp only [List.length_cons, List.length_drop] at hlr
            rcases List.mem_cons.mp hl with hl | hl
            · subst hl; exact hline
            · exact ih r (by omega) l hl

theorem splitlines_break_free (s : List Char) :
    ∀ l ∈ splitlines s, ∀ c ∈ l, lineBreakChar c = false :=
  splitlinesAux_break_free s.length s le_rfl

theorem splitlinesAux_infix :
    ∀ (f : Nat) (s : List Char), s.length ≤ f →
      ∀ l ∈ splitlinesAux f s, ∃ a b, s = a ++ l ++ b := by
  intro f
  induction f with
  | zero =>
      intro s hs l hl
      have : s = [] := List.eq_nil_of_length_eq_zero (Nat.le_zero.mp hs)
      subst this
      simp [splitlinesAux] at hl
  | succ f ih =>
      intro s hs l hl
      cases s with
      | nil => simp [splitlinesAux] at hl
      | cons c cs =>
          simp only [List.length_cons] at hs
          rw [splitlinesAux_succ] at hl
          have hsl : (c :: cs) =
              ((c :: cs).takeWhile (fun c => !lineBreakChar c)) ++
                (c :: cs).drop ((c :: cs).takeWhile (fun c => !lineBreakChar c)).length := by
            conv_lhs => rw [← List.take_append_drop
              ((c :: cs).takeWhile (fun c => !lineBreakChar c)).length (c :: cs)]
            rw [← List.prefix_iff_eq_take.mp (List.takeWhile_prefix _)]
          have hline_decomp : ∃ a b, (c :: cs) =
              a ++ ((c :: cs).takeWhile (fun c => !lineBreakChar c)) ++ b :=
            ⟨[], (c :: cs).drop ((c :: cs).takeWhile (fun c => !lineBreakChar c)).length, by
              conv_lhs => rw [hsl]
              simp⟩
          split at hl
          · rename_i heq
            simp only [List.mem_singleton] at hl
            subst hl
            exact hline_decomp
          · rename_i r heq
            have hlr := congrArg List.length heq
            simp only [List.length_cons, List.length_drop] at hlr
            rcases List.mem_cons.mp hl with hl | hl
            · subst hl
              exact hline_decomp
            · obtain ⟨a, b, hab⟩ := ih r (by omega) l hl
              refine ⟨(c :: cs).takeWhile (fun c => !lineBreakChar c) ++ '\x0d' :: '\n' :: a, b, ?_⟩
              conv_lhs => rw [hsl, heq]
              rw [hab]
              simp [List.append_assoc]
          · rename_i hd0 r noconf heq
            have hlr := congrArg List.length heq
            simp only [List.length_cons, List.length_drop] at hlr
            rcases List.mem_cons.mp hl with hl | hl
            · subst hl
              exact hline_decomp
            · obtain ⟨a, b, hab⟩ := ih r (by omega) l hl
              refine ⟨(c :: cs).takeWhile (fun c => !lineBreakChar c) ++ hd0 :: a, b, ?_⟩
              conv_lhs => rw [hsl, heq]
              rw [hab]
              simp [List.append_assoc]

theorem splitlines_infix (s : List Char) :
    ∀ l ∈ splitlines s, ∃ a b, s = a ++ l ++ b :=
  splitlinesAux_infix s.length s le_rfl

theorem suffix_of_suffix_le (x y s : List Char) (hx : x <:+ s) (hy : y <:+ s)
    (hle : x.length ≤ y.length) : x <:+ y := by
  obtain ⟨u, hu⟩ := hx
  obtain ⟨v, hv⟩ := hy
  have h1 := congrArg List.length hu
  have h2 := congrArg List.length hv
  simp only [List.length_append] at h1 h2
  have hvu : v.length ≤ u.length := by omega
  have hy2 : u ++ x = v ++ y := by rw [hu, hv]
  have h3 := congrArg (List.drop v.length) hy2
  rw [List.drop_append_of_le_length hvu, List.drop_left] at h3
  rw [← h3]
  exact List.suffix_append _ _

/-- When the text ends with a nonempty break-free suffix q, the split has a
last line and q is a suffix of it. -/
theorem splitlinesAux_last_suffix (q : List Char) (hq : q ≠ [])
    (hqb : ∀ c ∈ q, lineBreakChar c = false) :
    ∀ (f : Nat) (s : List Char), s.length ≤ f → q <:+ s →
      ∃ L ll, splitlinesAux f s = L ++ [ll] ∧ q <:+ ll := by
  intro f
  induction f with
  | zero =>
      intro s hs hsuf
      have : s = [] := List.eq_nil_of_length_eq_zero (Nat.le_zero.mp hs)
      subst this
      exact absurd (List.suffix_nil.mp hsuf) hq
  | succ f ih =>
      intro s hs hsuf
      cases s with
      | nil => exact absurd (List.suffix_nil.mp hsuf) hq
      | cons c cs =>
          simp only [List.length_cons] at hs
          have hsl : (c :: cs) =
              ((c :: cs).takeWhile (fun c => !lineBreakChar c)) ++
                (c :: cs).drop ((c :: cs).takeWhile (fun c => !lineBreakChar c)).length := by
            conv_lhs => rw [← List.take_append_drop
              ((c :: cs).takeWhile (fun c => !lineBreakChar c)).length (c :: cs)]
            rw [← List.prefix_iff_eq_take.mp (List.takeWhile_prefix _)]
          rw [splitlinesAux_succ]
          split
          · rename_i heq
            refine ⟨[], _, rfl, ?_⟩
            have hfull : (c :: cs).takeWhile (fun c => !lineBreakChar c) = c :: cs := by
              conv_rhs => rw [hsl, heq]
              simp
            rw [hfull]
            exact hsuf
          · rename_i r heq
            have hbreak : lineBreakChar '\n' = true := by decide
            have hqr : q <:+ r := by
              have hsufr : ('\n' :: r) <:+ (c :: cs) := by
                rw [hsl, heq]
                have h1 : ('\n' :: r) <:+ ('\x0d' :: '\n' :: r) := ⟨['\x0d'], rfl⟩
                exact h1.trans (List.suffix_append _ _)
              by_cases hle : q.length ≤ r.length
              · have hrs : r <:+ (c :: cs) := by
                  have h1 : r <:+ ('\n' :: r) := ⟨['\n'], rfl⟩
                  exact h1.trans hsufr
                exact suffix_of_suffix_le q r (c :: cs) hsuf hrs hle
              · exfalso
                have hnr : ('\n' :: r) <:+ q := by
                  refine suffix_of_suffix_le ('\n' :: r) q (c :: cs) hsufr hsuf ?_
                  simp only [List.length_cons]
                  omega
                have : lineBreakChar '\n' = false := hqb '\n' (hnr.subset (by simp))
                rw [hbreak] at this
                cases this
            have hlr := congrArg List.length heq
            simp only [List.length_cons, List.length_drop] at hlr
            obtain ⟨L, ll, hL, hllsuf⟩ := ih r (by omega) hqr
            exact ⟨((c :: cs).takeWhile (fun c => !lineBreakChar c)) :: L, ll,
              by rw [hL]; rfl, hllsuf⟩
          · rename_i hd0 r noconf heq
            have hbreak : lineBreakChar hd0 = true := by
              have hdw := drop_takeWhile_length (fun c => !lineBreakChar c) (c :: cs)
              rw [heq] at hdw
              have := dropWhile_head_false (fun c => !lineBreakChar c) (c :: cs) hd0 r hdw.symm
              simpa using this
            have hqr : q <:+ r := by
              have hsufr : (hd0 :: r) <:+ (c :: cs) := by
                rw [hsl, heq]
                exact List.suffix_append _ _
              by_cases hle : q.length ≤ r.length
              · have hrs : r <:+ (c :: cs) := by
                  have h1 : r <:+ (hd0 :: r) := ⟨[hd0], rfl⟩
                  exact h1.trans hsufr
                exact suffix_of_suffix_le q r (c :: cs) hsuf hrs hle
              · exfalso
                have hnr : (hd0 :: r) <:+ q := by
                  refine suffix_of_suffix_le (hd0 :: r) q (c :: cs) hsufr hsuf ?_
                  simp only [List.length_cons]
                  omega
                have : lineBreakChar hd0 = false := hqb hd0 (hnr.subset (by simp))
                rw [hbreak] at this
                cases this
            have hlr := congrArg List.length heq
            simp only [List.length_cons, List.length_drop] at hlr
            obtain ⟨L, ll, hL, hllsuf⟩ := ih r (by omega) hqr
            exact ⟨((c :: cs).takeWhile (fun c => !lineBreakChar c)) :: L, ll,
              by rw [hL]; rfl, hllsuf⟩

theorem splitlines_last_suffix (q : List Char) (hq : q ≠ [])
    (hqb : ∀ c ∈ q, lineBreakChar c = false) (s : List Char) (hsuf : q <:+ s) :
    ∃ L ll, splitlines s = L ++ [ll] ∧ q <:+ ll :=
  splitlinesAux_last_suffix q hq hqb s.length s le_rfl hsuf

/-- A text whose last character is not a line break and whose split is a
single line is that line. -/
theorem splitlines_eq_singleton (s l : List Char) (h : splitlines s = [l])
    (hlast : ∃ c, s.getLast? = some c ∧ lineBreakChar c = false) : l = s := by
  cases s with
  | nil => simp [splitlines, splitlinesAux] at h
  | cons c cs =>
      unfold splitlines at h
      simp only [List.length_cons] at h
      have hsl : (c :: cs) =
          ((c :: cs).takeWhile (fun c => !lineBreakChar c)) ++
            (c :: cs).drop ((c :: cs).takeWhile (fun c => !lineBreakChar c)).length := by
        conv_lhs => rw [← List.take_append_drop
          ((c :: cs).takeWhile (fun c => !lineBreakChar c)).length (c :: cs)]
        rw [← List.prefix_iff_eq_take.mp (List.takeWhile_prefix _)]
      rw [splitlinesAux_succ] at h
      split at h
      · rename_i heq
        simp only [List.cons.injEq] at h
        obtain ⟨hl, -⟩ := h
        subst hl
        conv_rhs => rw [hsl, heq]
        simp
      · rename_i r heq
        simp only [List.cons.injEq] at h
        obtain ⟨-, hrest⟩ := h
        have hr : r = [] := splitlinesAux_eq_nil _ _ hrest
        subst hr
        obtain ⟨d, hd, hdb⟩ := hlast
        have : (c :: cs).getLast? = some '\n' := by
          rw [hsl, heq, show ((c :: cs).takeWhile (fun c => !lineBreakChar c)) ++
            ['\x0d', '\n'] = (((c :: cs).takeWhile (fun c => !lineBreakChar c)) ++
              ['\x0d']) ++ ['\n'] by simp, List.getLast?_concat]
        rw [this] at hd
        simp only [Option.some.injEq] at hd
        subst hd
        simp [lineBreakChar] at hdb
      · rename_i hd0 r noconf heq
        simp only [List.cons.injEq] at h
        obtain ⟨-, hrest⟩ := h
        have hr : r = [] := splitlinesAux_eq_nil _ _ hrest
        subst hr
        obtain ⟨d, hd, hdb⟩ := hlast
        have hbreak : lineBreakChar hd0 = true := by
          have hdw := drop_takeWhile_length (fun c => !lineBreakChar c) (c :: cs)
          rw [heq] at hdw
          have := dropWhile_head_false (fun c => !lineBreakChar c) (c :: cs) hd0 [] hdw.symm
          simpa using this
        have : (c :: cs).getLast? = some hd0 := by
          rw [hsl, heq, List.getLast?_concat]
        rw [this] at hd
        simp only [Option.some.injEq] at hd
        subst hd
        rw [hbreak] at hdb
        cases hdb

theorem countP_insertAt (p : List Char → Bool) (idx : Nat) (a : List Char)
    (ls : List (List Char)) :
    (insertAt idx a ls).countP p = ls.countP p + (if p a then 1 else 0) := by
  unfold insertAt
  rw [List.countP_append, List.countP_cons]
  conv_rhs => rw [← List.take_append_drop idx ls, List.countP_append]
  omega

theorem joinNL_getLast_suffix :
    ∀ (ls : List (List Char)) (l : List Char), ls.getLast? = some l → l <:+ joinNL ls := by
  intro ls
  induction ls with
  | nil => intro l h; cases h
  | cons x xs ih =>
      intro l h
      cases xs with
      | nil =>
          simp only [List.getLast?_singleton, Option.some.injEq] at h
          subst h
          exact List.suffix_refl _
      | cons y ys =>
          rw [List.getLast?_cons_cons] at h
          have := ih l h
          rw [show joinNL (x :: y :: ys) = x ++ '\n' :: joinNL (y :: ys) from rfl]
          exact (this.trans ⟨['\n'], rfl⟩).trans (List.suffix_append _ _)

theorem prefix_takeWhile (p : Char → Bool) :
    ∀ (q s : List Char), q <+: s → (∀ c ∈ q, p c = true) → q <+: s.takeWhile p := by
  intro q
  induction q with
  | nil => intro s _ _; exact List.nil_prefix
  | cons c q ih =>
      intro s hpre hq
      cases s with
      | nil => exact absurd (List.eq_nil_of_prefix_nil hpre) (by simp)
      | cons d ds =>
          obtain ⟨t, ht⟩ := hpre
          simp only [List.cons_append, List.cons.injEq] at ht
          obtain ⟨rfl, ht⟩ := ht
          rw [List.takeWhile_cons, if_pos (hq c (by simp))]
          have hq2 : q <+: ds := ⟨t, ht⟩
          obtain ⟨u, hu⟩ := ih ds hq2 (fun e he => hq e (by simp [he]))
          exact ⟨u, by rw [List.cons_append, hu]⟩

theorem splitlines_head (c : Char) (cs : List Char) :
    ∃ L, splitlines (c :: cs) = ((c :: cs).takeWhile (fun c => !lineBreakChar c)) :: L := by
  unfold splitlines
  simp only [List.length_cons]
  rw [splitlinesAux_succ]
  split
  · exact ⟨[], rfl⟩
  · exact ⟨_, rfl⟩
  · exact ⟨_, rfl⟩

/-! ### The header stage in the marker-missing case -/

theorem add_target_mz_of_missing (H : List Char) (hmiss : containsSub targetMark H = false)
    (l : List Char) (ls : List (List Char)) (hsp : splitlines H = l :: ls) :
    add_target_mz H =
      joinNL (insertAt (if 1 < (l :: ls).length then 1 else 0) markerLine (l :: ls)) := by
  unfold add_target_mz
  rw [if_neg (by rw [hmiss]; simp), hsp]

theorem add_target_mz_ne (H : List Char) (hne : H ≠ [])
    (hmiss : containsSub targetMark H = false) : add_target_mz H ≠ H := by
  intro heq
  rcases hspc : splitlines H with _ | ⟨l, ls⟩
  · exact splitlinesAux_ne_nil H.length H hne hspc
  · have hadd := add_target_mz_of_missing H hmiss l ls hspc
    have hcontains : containsSub targetMark (add_target_mz H) = true := by
      rw [hadd]
      exact marker_in_joinNL_insert _ _
    rw [heq, hmiss] at hcontains
    cases hcontains

theorem header_ne_nil (s : List Char) (i len : Nat) (h : findHeader s = some (i, len)) :
    (s.drop i).take len ≠ [] := by
  intro hnil
  have := (header_shape s i len h).2
  rw [hnil] at this
  have := List.suffix_nil.mp this
  simp [headerClose] at this

theorem ensure_changed (s : List Char) (i len : Nat) (hfh : findHeader s = some (i, len))
    (hmiss : containsSub targetMark ((s.drop i).take len) = false) :
    ensure_header_has_target_mz s =
      (s.take i ++ add_target_mz ((s.drop i).take len) ++ s.drop (i + len), true) := by
  have hne := add_target_mz_ne _ (header_ne_nil s i len hfh) hmiss
  unfold ensure_header_has_target_mz
  rw [hfh]
  simp only [ne_eq]
  rw [if_pos (by simpa using hne)]

theorem colorLines_count_zero (keep : Bool) (t : List Char) :
    (replace_colors keep t).2.count headerLine = 0 := by
  rw [List.count_eq_zero]
  intro hmem
  cases keep with
  | true => simp [replace_colors] at hmem
  | false =>
      unfold replace_colors at hmem
      simp only [Bool.false_eq_true, if_false] at hmem
      rcases colorStage_mem COLOR_REPLACEMENTS _ [] headerLine hmem with h0 | ⟨e, _, n, _, heq⟩
      · simp at h0
      · exact colorLine_ne_headerLine e n heq.symm

theorem wbLines_count_zero (t : List Char) :
    (replace_window_base_methods t).2.count headerLine = 0 := by
  rw [List.count_eq_zero]
  intro hmem
  rcases wbStage_mem WINDOW_BASE_TO_STATUSBASE_METHODS t [] headerLine hmem with h0 | ⟨m, _, heq⟩
  · simp at h0
  · exact wbLine_ne_headerLine m heq.symm

theorem pcLines_count_zero (t : List Char) :
    (annotate_plugin_command_todos t).2.count headerLine = 0 := by
  rw [List.count_eq_zero]
  intro hmem
  unfold annotate_plugin_command_todos at hmem
  rcases pcStage_mem MV_PLUGIN_COMMAND_SIGNS t [] headerLine hmem with h0 | heq
  · simp at h0
  · exact pcLine_ne_headerLine heq.symm

theorem headerLine_count_report (keep : Bool) (s : List Char) :
    (convert_text keep s).2.count headerLine =
      (if (ensure_header_has_target_mz s).2 then 1 else 0) := by
  unfold convert_text
  simp only [List.count_append, wbLines_count_zero, colorLines_count_zero, pcLines_count_zero]
  cases (ensure_header_has_target_mz s).2 <;> simp [List.count_cons]

theorem add_target_mz_multiline (H : List Char)
    (hop : headerOpen <+: H) (hcl : headerClose <:+ H)
    (hmiss : containsSub targetMark H = false)
    (hlen2 : 2 ≤ (splitlines H).length) :
    splitlines (add_target_mz H) = insertAt 1 markerLine (splitlines H) ∧
    headerOpen <+: add_target_mz H ∧
    headerClose <:+ add_target_mz H ∧
    (splitlines (add_target_mz H)).countP
      (fun l => containsSub (("@target MZ").data) l) = 1 := by
  have hne : H ≠ [] := by
    intro h
    rw [h] at hcl
    have := List.suffix_nil.mp hcl
    simp [headerClose] at this
  rcases hspc : splitlines H with _ | ⟨l0, ls1⟩
  · exact absurd hspc (splitlinesAux_ne_nil _ _ hne)
  rcases ls1 with _ | ⟨l1, ls2⟩
  · rw [hspc] at hlen2
    simp at hlen2
  have hlines_bf : ∀ l ∈ (l0 :: l1 :: ls2), ∀ c ∈ l, lineBreakChar c = false := by
    intro l hl
    exact splitlines_break_free H l (hspc ▸ hl)
  obtain ⟨L, ll, hLL, hllsuf⟩ := splitlines_last_suffix headerClose (by decide)
    (by decide) H hcl
  have hll_ne : ll ≠ [] := by
    intro h
    rw [h] at hllsuf
    have := List.suffix_nil.mp hllsuf
    simp [headerClose] at this
  have hglines : (l0 :: l1 :: ls2).getLast? = some ll := by
    rw [← hspc, hLL]
    exact List.getLast?_concat L
  have hins : insertAt 1 markerLine (l0 :: l1 :: ls2) = l0 :: markerLine :: l1 :: ls2 := rfl
  have hadd : add_target_mz H = joinNL (l0 :: markerLine :: l1 :: ls2) := by
    rw [add_target_mz_of_missing H hmiss l0 (l1 :: ls2) hspc,
      if_pos (by simp), hins]
  have hmk_bf : ∀ c ∈ markerLine, lineBreakChar c = false := by decide
  have hrt : splitlines (joinNL (l0 :: markerLine :: l1 :: ls2)) =
      l0 :: markerLine :: l1 :: ls2 := by
    apply splitlines_joinNL _ (by simp)
    · intro l hl c hc
      rcases List.mem_cons.mp hl with rfl | hl
      · exact hlines_bf _ (by simp) c hc
      rcases List.mem_cons.mp hl with rfl | hl
      · exact hmk_bf c hc
      · exact hlines_bf l (by simp [hl]) c hc
    · intro llx hllx
      have hch : (l0 :: markerLine :: l1 :: ls2).getLast? = (l1 :: ls2).getLast? := by
        rw [List.getLast?_cons_cons, List.getLast?_cons_cons]
      have hch2 : (l0 :: l1 :: ls2).getLast? = (l1 :: ls2).getLast? :=
        List.getLast?_cons_cons
      rw [hch] at hllx
      rw [hch2] at hglines
      rw [hglines] at hllx
      cases hllx
      exact hll_ne
  refine ⟨?_, ?_, ?_, ?_⟩
  · rw [hadd, hrt, hins]
  · have hl0eq : l0 = H.takeWhile (fun c => !lineBreakChar c) := by
      obtain ⟨c, cs, hH⟩ : ∃ c cs, H = c :: cs := by
        cases H with
        | nil => exact absurd rfl hne
        | cons c cs => exact ⟨c, cs, rfl⟩
      obtain ⟨L', hL'⟩ := splitlines_head c cs
      rw [← hH] at hL'
      rw [hspc] at hL'
      exact (List.cons.injEq _ _ _ _).mp hL' |>.1
    have hpre0 : headerOpen <+: l0 := by
      rw [hl0eq]
      exact prefix_takeWhile _ headerOpen H hop (by decide)
    rw [hadd,
      show joinNL (l0 :: markerLine :: l1 :: ls2) =
        l0 ++ '\n' :: joinNL (markerLine :: l1 :: ls2) from rfl]
    exact hpre0.trans (List.prefix_append _ _)
  · have hlast2 : (l0 :: markerLine :: l1 :: ls2).getLast? = some ll := by
      rw [List.getLast?_cons_cons, List.getLast?_cons_cons]
      rw [List.getLast?_cons_cons] at hglines
      exact hglines
    have hsufj := joinNL_getLast_suffix _ ll hlast2
    rw [hadd]
    exact hllsuf.trans hsufj
  · rw [hadd, hrt, ← hins, countP_insertAt]
    have hmz : containsSub (("@target MZ").data) markerLine = true := by decide
    rw [hmz, if_pos rfl]
    have hz : (l0 :: l1 :: ls2).countP (fun l => containsSub (("@target MZ").data) l) = 0 := by
      rw [List.countP_eq_zero]
      intro l hl hcon
      have h1 : containsSub targetMark l = true :=
        containsSub_of_prefix_contains targetMark (("@target MZ").data) l
          ⟨(" MZ").data, rfl⟩ (by simpa using hcon)
      obtain ⟨a, b, hab⟩ := splitlines_infix H l (hspc ▸ hl)
      have h2 : containsSub targetMark H = true := by
        rw [hab]
        exact containsSub_of_infix _ _ _ _ h1
      rw [hmiss] at h2
      cases h2
    omega

theorem add_target_mz_singleline (H : List Char)
    (hcl : headerClose <:+ H) (hmiss : containsSub targetMark H = false)
    (hlen1 : (splitlines H).length = 1) :
    add_target_mz H = markerLine ++ '\n' :: H := by
  have hne : H ≠ [] := by
    intro h
    rw [h] at hcl
    have := List.suffix_nil.mp hcl
    simp [headerClose] at this
  rcases hspc : splitlines H with _ | ⟨l0, ls1⟩
  · exact absurd hspc (splitlinesAux_ne_nil _ _ hne)
  rcases ls1 with _ | ⟨l1, ls2⟩
  · have hl0 : l0 = H := by
      apply splitlines_eq_singleton H l0 hspc
      obtain ⟨pre, hpre⟩ := hcl
      have hhc : headerClose = ['*', '/'] := rfl
      refine ⟨'/', ?_, by decide⟩
      rw [← hpre, hhc, show pre ++ ['*', '/'] = (pre ++ ['*']) ++ ['/'] by simp,
        List.getLast?_concat]
    rw [add_target_mz_of_missing H hmiss l0 [] hspc, if_neg (by simp),
      show insertAt 0 markerLine [l0] = [markerLine, l0] from rfl,
      show joinNL [markerLine, l0] = markerLine ++ '\n' :: l0 from rfl, hl0]
  · rw [hspc] at hlen1
    simp at hlen1

/-- C3 (amended): with no header block, or a block already containing the
target token, the header stage returns the text unchanged with no report
line.  When the first block lacks the token, the stage splices the
rewritten block back at the same offsets and convert reports the header
line exactly once.  When the block spans two or more lines, the rewritten
block is the original with the marker line inserted immediately after the
first line, so it splits into the original lines plus exactly one line
containing the marker and still begins with the open delimiter and ends
with the close delimiter.  When the block is a single line, the marker line
is placed immediately before the block, which itself remains unchanged and
without the marker. -/
theorem c3_header_normalization :
    (∀ s : List Char, headerNeedsNothing s = true →
      ensure_header_has_target_mz s = (s, false)) ∧
    (∀ (s : List Char) (i len : Nat), findHeader s = some (i, len) →
      containsSub targetMark ((s.drop i).take len) = false →
      ensure_header_has_target_mz s =
        (s.take i ++ add_target_mz ((s.drop i).take len) ++ s.drop (i + len), true) ∧
      splitlines ((s.drop i).take len) ≠ [] ∧
      (2 ≤ (splitlines ((s.drop i).take len)).length →
        splitlines (add_target_mz ((s.drop i).take len)) =
          insertAt 1 markerLine (splitlines ((s.drop i).take len)) ∧
        headerOpen <+: add_target_mz ((s.drop i).take len) ∧
        headerClose <:+ add_target_mz ((s.drop i).take len) ∧
        (splitlines (add_target_mz ((s.drop i).take len))).countP
          (fun l => containsSub (("@target MZ").data) l) = 1) ∧
      ((splitlines ((s.drop i).take len)).length = 1 →
        add_target_mz ((s.drop i).take len) =
          markerLine ++ '\n' :: ((s.drop i).take len))) ∧
    (∀ (keep : Bool) (s : List Char),
      (convert_text keep s).2.count headerLine =
        (if (ensure_header_has_target_mz s).2 then 1 else 0)) := by
  refine ⟨fun s h => ensure_no_op s h, ?_, fun keep s => headerLine_count_report keep s⟩
  intro s i len hfh hmiss
  have hshape := header_shape s i len hfh
  have hne := header_ne_nil s i len hfh
  refine ⟨ensure_changed s i len hfh hmiss, splitlinesAux_ne_nil _ _ hne, ?_, ?_⟩
  · intro hlen2
    exact add_target_mz_multiline _ hshape.1 hshape.2 hmiss hlen2
  · intro hlen1
    exact add_target_mz_singleline _ hshape.2 hmiss hlen1

/-- C3 witness: a three-line header block lacking the marker, rewritten and
spliced back. -/
theorem c3_header_normalization_witness :
    ensure_header_has_target_mz (("/*:\n * P\n */").data) =
      ((("/*:\n * P\n */").data).take 0 ++
        add_target_mz ((((("/*:\n * P\n */").data).drop 0)).take 12) ++
        (("/*:\n * P\n */").data).drop (0 + 12), true) :=
  (c3_header_normalization.2.1 (("/*:\n * P\n */").data) 0 12 rfl (by decide)).1

/-- C3 counterexample: for a single-line header block the stage fires, but
the first header block of the resulting text is the unchanged original
block: no line was added to it and it still lacks the marker, so the
resulting header block does not parse as the old block with one line
added. -/
theorem c3_header_counterexample :
    ensure_header_has_target_mz (("/*: x */").data) =
      (((" * @target MZ\n/*: x */").data), true) ∧
    headerOf ((" * @target MZ\n/*: x */").data) = some (("/*: x */").data) ∧
    containsSub targetMark (("/*: x */").data) = false ∧
    splitlines (("/*: x */").data) = [(("/*: x */").data)] := by
  refine ⟨rfl, rfl, rfl, rfl⟩

/-! ### Chunk decomposition of a single-literal substitution -/

theorem lastCtx_nil (prev : Option Char) : lastCtx prev [] = prev := rfl

theorem lastCtx_cons (prev : Option Char) (c : Char) (v : List Char) :
    lastCtx prev (c :: v) = lastCtx (some c) v := by
  cases v with
  | nil => rfl
  | cons c' v' => rfl

theorem lastCtx_ne_nil (prev : Option Char) (v : List Char) (hv : v ≠ []) :
    lastCtx prev v = some (v.getLastD ' ') := by
  cases v with
  | nil => exact absurd rfl hv
  | cons c v' => rfl

theorem head_append_left (l k : List Char) (h : l ≠ []) : (l ++ k).head? = l.head? := by
  cases l with
  | nil => exact absurd rfl h
  | cons a l' => rfl

theorem count_single_ne (a b : List Char) (h : b ≠ a) : List.count a [b] = 0 := by
  simp [List.count_cons]
  exact h

theorem litTry_fire_shape (pat rep : List Char) (prev : Option Char) (s e r : List Char)
    (lc : Char) (h : litTry pat rep prev s = some (e, r, lc)) :
    e = rep ∧ s = pat ++ r ∧ lc = pat.getLastD ' ' ∧ bdryBefore prev = true ∧
      bdryAfter r = true := by
  simp only [litTry] at h
  split at h
  · rename_i hcond
    rw [Bool.and_assoc, Bool.and_eq_true, Bool.and_eq_true] at hcond
    obtain ⟨hb, hpre, hafter⟩ := hcond
    cases h
    refine ⟨rfl, ?_, rfl, hb, hafter⟩
    obtain ⟨t, ht⟩ := List.isPrefixOf_iff_prefix.mp hpre
    have hdrop : s.drop pat.length = t := by
      rw [← ht]
      exact List.drop_left pat t
    rw [hdrop, ht]
  · simp at h

theorem noFireOn_nil (t : Matcher) (prev : Option Char) (K : List Char) :
    NoFireOn t prev [] K := by
  intro v₁ v₂ hv₂ heq
  exact absurd (List.append_eq_nil.mp heq.symm).2 hv₂

theorem noFireOn_cons (t : Matcher) (prev : Option Char) (c : Char) (v K : List Char)
    (h0 : t prev (c :: (v ++ K)) = none) (hrec : NoFireOn t (some c) v K) :
    NoFireOn t prev (c :: v) K := by
  intro v₁ v₂ hv₂ heq
  cases v₁ with
  | nil =>
      have hv : v₂ = c :: v := by simpa using heq.symm
      subst hv
      rw [lastCtx_nil]
      simpa using h0
  | cons c₁ v₁' =>
      simp only [List.cons_append] at heq
      injection heq with h1 h2
      subst h1
      rw [lastCtx_cons]
      exact hrec v₁' v₂ hv₂ h2

theorem subParse_cons (t : Matcher) (pat rep : List Char) (prev : Option Char)
    (c : Char) (cs out : List Char)
    (h0 : t prev (c :: cs) = none)
    (hp : SubParse t pat rep (some c) cs out) :
    SubParse t pat rep prev (c :: cs) (c :: out) := by
  cases hp with
  | last _ _ hv =>
      exact SubParse.last prev (c :: cs)
        (noFireOn_cons t prev c cs [] (by simpa using h0) hv)
  | step _ v s' out' hv hfire hrec =>
      have h := @SubParse.step t pat rep prev (c :: v) s' out'
        (noFireOn_cons t prev c v (pat ++ s') (by simpa using h0) hv)
        (by rw [lastCtx_cons]; exact hfire)
        hrec
      simpa using h

theorem scanSub_subParse (pat rep : List Char) (hp : pat ≠ []) :
    ∀ (fuel : Nat) (prev : Option Char) (s : List Char), s.length ≤ fuel →
      SubParse (litTry pat rep) pat rep prev s
        (scanSub (litTry pat rep) fuel prev s).1 := by
  intro fuel
  induction fuel with
  | zero =>
      intro prev s hlen
      have hs : s = [] := List.eq_nil_of_length_eq_zero (Nat.le_zero.mp hlen)
      subst hs
      rw [scanSub_nil]
      exact SubParse.last prev [] (noFireOn_nil _ _ _)
  | succ fuel ih =>
      intro prev s hlen
      cases s with
      | nil =>
          rw [scanSub_nil]
          exact SubParse.last prev [] (noFireOn_nil _ _ _)
      | cons c cs =>
          cases ht : litTry pat rep prev (c :: cs) with
          | some v =>
              obtain ⟨e, r, lc⟩ := v
              rw [scanSub_cons_some _ fuel prev c cs e r lc ht]
              obtain ⟨he, hs, hlc, -, -⟩ := litTry_fire_shape pat rep prev (c :: cs) e r lc ht
              have hcons : r.length < (c :: cs).length :=
                litTry_consuming pat rep hp prev _ e r lc ht
              have hr : r.length ≤ fuel := by
                simp only [List.length_cons] at hlen hcons
                omega
              rw [he, hlc] at ht
              have hrec := ih (some (pat.getLastD ' ')) r hr
              have hstep := @SubParse.step (litTry pat rep) pat rep
                prev [] r (scanSub (litTry pat rep) fuel (some (pat.getLastD ' ')) r).1
                (noFireOn_nil _ _ _)
                (by rw [lastCtx_nil, ← hs]; exact ht)
                hrec
              dsimp only
              rw [he, hlc, hs]
              simpa using hstep
          | none =>
              rw [scanSub_cons_none _ fuel prev c cs ht]
              exact subParse_cons _ pat rep prev c cs _ ht
                (ih (some c) cs (by simp only [List.length_cons] at hlen; omega))

theorem hasMatchSub_append (t : Matcher) :
    ∀ (v : List Char) (prev : Option Char) (K : List Char),
      hasMatchSub t prev (v ++ K) =
        (fireIn t prev v K || hasMatchSub t (lastCtx prev v) K) := by
  intro v
  induction v with
  | nil =>
      intro prev K
      rw [lastCtx_nil]
      simp [fireIn]
  | cons c v' ih =>
      intro prev K
      rw [List.cons_append, hasMatchSub_cons, ih (some c) K, lastCtx_cons]
      simp [fireIn, Bool.or_assoc]

theorem fireIn_false_of_noFireOn (t : Matcher) :
    ∀ (v : List Char) (prev : Option Char) (K : List Char),
      NoFireOn t prev v K → fireIn t prev v K = false := by
  intro v
  induction v with
  | nil => intro prev K _; rfl
  | cons c v' ih =>
      intro prev K h
      have h0 : t prev (c :: (v' ++ K)) = none := by
        have := h [] (c :: v') (by simp) (by simp)
        simpa [lastCtx_nil] using this
      have hrec : NoFireOn t (some c) v' K := by
        intro v₁ v₂ hv₂ heq
        have := h (c :: v₁) v₂ hv₂ (by rw [heq]; rfl)
        rwa [lastCtx_cons] at this
      show ((t prev (c :: (v' ++ K))).isSome || fireIn t (some c) v' K) = false
      rw [ih (some c) K hrec, h0]
      rfl

/-! ### A boundary-literal match never looks past the head of what follows -/

theorem prefixTest_congr_aux :
    ∀ (l p K K' : List Char) (hd : Char), K.head? = some hd → K'.head? = some hd →
      hd ∉ p →
      (p.isPrefixOf (l ++ K) && bdryAfter ((l ++ K).drop p.length)) =
      (p.isPrefixOf (l ++ K') && bdryAfter ((l ++ K').drop p.length)) := by
  intro l
  induction l with
  | nil =>
      intro p K K' hd hK hK' hp
      cases p with
      | nil =>
          simp only [List.isPrefixOf, List.nil_append, List.length_nil, List.drop_zero,
            Bool.true_and]
          cases K with
          | nil => simp at hK
          | cons k K1 =>
              cases K' with
              | nil => simp at hK'
              | cons k' K1' =>
                  simp at hK hK'
                  subst hK
                  subst hK'
                  rfl
      | cons q p' =>
          have hq : (q == hd) = false := by
            simp only [beq_eq_false_iff_ne, ne_eq]
            intro h
            exact hp (by simp [h])
          cases K with
          | nil => simp at hK
          | cons k K1 =>
              cases K' with
              | nil => simp at hK'
              | cons k' K1' =>
                  simp at hK hK'
                  subst hK
                  subst hK'
                  simp [List.isPrefixOf, hq]
  | cons c l' ih =>
      intro p K K' hd hK hK' hp
      cases p with
      | nil =>
          simp [List.isPrefixOf, bdryAfter]
      | cons q p' =>
          cases hqc : (q == c) with
          | false => simp [List.cons_append, List.isPrefixOf, hqc]
          | true =>
              have hrec := ih p' K K' hd hK hK' (fun h => hp (List.mem_cons_of_mem q h))
              simp only [List.cons_append, List.isPrefixOf, hqc, Bool.true_and,
                List.length_cons, List.drop_succ_cons]
              exact hrec

theorem litTry_isSome_cond (patP repP : List Char) (prev : Option Char) (s : List Char) :
    (litTry patP repP prev s).isSome =
      (bdryBefore prev && patP.isPrefixOf s && bdryAfter (s.drop patP.length)) := by
  simp only [litTry]
  split <;> rename_i h
  · simp [h]
  · simp only [Bool.not_eq_true] at h
    simp [h]

theorem litTry_isSome_congr (patP repP : List Char) (hd : Char) (prev : Option Char)
    (c : Char) (v K K' : List Char)
    (hK : K.head? = some hd) (hK' : K'.head? = some hd) (htl : hd ∉ patP.tail) :
    (litTry patP repP prev (c :: (v ++ K))).isSome =
      (litTry patP repP prev (c :: (v ++ K'))).isSome := by
  rw [litTry_isSome_cond, litTry_isSome_cond]
  cases patP with
  | nil => simp [List.isPrefixOf, bdryAfter]
  | cons q pt =>
      have haux := prefixTest_congr_aux v pt K K' hd hK hK' (by simpa using htl)
      simp only [List.isPrefixOf, List.length_cons, List.drop_succ_cons]
      cases bdryBefore prev <;> cases hqc : (q == c) <;> simp_all

theorem fireIn_congr (patP repP : List Char) (hd : Char) :
    ∀ (v : List Char) (prev : Option Char) (K K' : List Char),
      K.head? = some hd → K'.head? = some hd → hd ∉ patP.tail →
      fireIn (litTry patP repP) prev v K = fireIn (litTry patP repP) prev v K' := by
  intro v
  induction v with
  | nil => intro prev K K' _ _ _; rfl
  | cons c v' ih =>
      intro prev K K' hK hK' htl
      show ((litTry patP repP prev (c :: (v' ++ K))).isSome || _) = _
      rw [litTry_isSome_congr patP repP hd prev c v' K K' hK hK' htl,
        ih (some c) K K' hK hK' htl]
      rfl

theorem fireIn_false_headfree (patP repP : List Char) (hd : Char)
    (hhead : patP.head? = some hd) :
    ∀ (w : List Char) (prev : Option Char) (K : List Char), hd ∉ w →
      fireIn (litTry patP repP) prev w K = false := by
  intro w
  induction w with
  | nil => intro prev K _; rfl
  | cons x w' ih =>
      intro prev K hw
      simp only [fireIn, Bool.or_eq_false_iff]
      refine ⟨?_, ih (some x) K (fun h => hw (List.mem_cons_of_mem x h))⟩
      cases patP with
      | nil => simp at hhead
      | cons q pt =>
          have hq : q = hd := by simpa using hhead
          have hx : (q == x) = false := by
            simp only [beq_eq_false_iff_ne, ne_eq, hq]
            intro h
            exact hw (by simp [h])
          rw [litTry_isSome_cond]
          have hp0 : ((q :: pt).isPrefixOf (x :: (w' ++ K))) = false := by
            simp only [List.isPrefixOf, Bool.and_eq_false_iff]
            left
            exact hx
          simp only [List.cons_append]
          rw [hp0]
          simp

theorem isPrefixOf_append_false :
    ∀ (p l K : List Char), p.isPrefixOf l = false → l.isPrefixOf p = false →
      p.isPrefixOf (l ++ K) = false := by
  intro p
  induction p with
  | nil => intro l K h1 _; simp [List.isPrefixOf] at h1
  | cons q p' ih =>
      intro l K h1 h2
      cases l with
      | nil => simp [List.isPrefixOf] at h2
      | cons c l' =>
          simp only [List.isPrefixOf, List.cons_append] at h1 h2 ⊢
          cases hqc : (q == c) with
          | false => simp [hqc]
          | true =>
              have hcq : (c == q) = true := by
                simp at hqc ⊢
                exact hqc.symm
              simp only [hqc, Bool.true_and] at h1 ⊢
              simp only [hcq, Bool.true_and] at h2
              exact ih l' K h1 h2

theorem isPrefixOf_append_cancel :
    ∀ (a b c : List Char), (a ++ b).isPrefixOf (a ++ c) = b.isPrefixOf c := by
  intro a
  induction a with
  | nil => intro b c; rfl
  | cons x a' ih => intro b c; simp [List.isPrefixOf, ih]

/-- At the start of the substituted span of the OLD text, a different
boundary-literal pattern cannot match: either the patterns diverge, or the
longer one continues with a word character where the recorded fire
guarantees a word boundary. -/
theorem litTry_oldspan_none (pat patP repP : List Char) (prev : Option Char) (K : List Char)
    (hne : patP ≠ pat)
    (h10 : patP.isPrefixOf pat = true → isWordChar ((pat.drop patP.length).headD ' ') = true)
    (h11 : pat.isPrefixOf patP = true → isWordChar ((patP.drop pat.length).headD ' ') = true)
    (hb : bdryAfter K = true) :
    litTry patP repP prev (pat ++ K) = none := by
  have hiff : (litTry patP repP prev (pat ++ K)).isSome = false →
      litTry patP repP prev (pat ++ K) = none := by
    intro h
    cases hv : litTry patP repP prev (pat ++ K) with
    | none => rfl
    | some v => rw [hv] at h; simp at h
  apply hiff
  rw [litTry_isSome_cond]
  cases hpp : patP.isPrefixOf pat with
  | true =>
      have hle := (List.isPrefixOf_iff_prefix.mp hpp).length_le
      have hlt : patP.length < pat.length := by
        rcases Nat.lt_or_ge patP.length pat.length with h | h
        · exact h
        · exact absurd ((List.isPrefixOf_iff_prefix.mp hpp).eq_of_length
            (Nat.le_antisymm hle h)) hne
      have hword := h10 hpp
      rw [List.drop_append_of_le_length (Nat.le_of_lt hlt)]
      cases hdp : pat.drop patP.length with
      | nil =>
          exfalso
          have := congrArg List.length hdp
          simp only [List.length_drop, List.length_nil] at this
          omega
      | cons y ys =>
          rw [hdp] at hword
          simp only [List.headD] at hword
          have hba : bdryAfter (y :: (ys ++ K)) = false := by
            simp [bdryAfter, hword]
          rw [List.cons_append, hba, Bool.and_false]
  | false =>
      cases hpp2 : pat.isPrefixOf patP with
      | false =>
          have hfa := isPrefixOf_append_false patP pat K hpp hpp2
          rw [hfa]
          simp
      | true =>
          have hle := (List.isPrefixOf_iff_prefix.mp hpp2).length_le
          have hlt : pat.length < patP.length := by
            rcases Nat.lt_or_ge pat.length patP.length with h | h
            · exact h
            · exact absurd ((List.isPrefixOf_iff_prefix.mp hpp2).eq_of_length
                (Nat.le_antisymm hle h)).symm hne
          have hdec : pat ++ patP.drop pat.length = patP := by
            obtain ⟨t, ht⟩ := List.isPrefixOf_iff_prefix.mp hpp2
            rw [← ht]
            rw [List.drop_left]
          have hword := h11 hpp2
          have hpre : patP.isPrefixOf (pat ++ K) = false := by
            rw [← hdec, isPrefixOf_append_cancel]
            cases hdp : patP.drop pat.length with
            | nil =>
                exfalso
                have := congrArg List.length hdp
                simp only [List.length_drop, List.length_nil] at this
                omega
            | cons y ys =>
                rw [hdp] at hword
                simp only [List.headD] at hword
                cases K with
                | nil => simp [List.isPrefixOf]
                | cons k Kt =>
                    simp only [bdryAfter] at hb
                    simp only [List.isPrefixOf, Bool.and_eq_false_iff]
                    left
                    simp only [beq_eq_false_iff_ne, ne_eq]
                    intro hyk
                    rw [hyk] at hword
                    rw [hword] at hb
                    simp at hb
          rw [hpre]
          simp

theorem fireIn_newspan_false (rep patP repP : List Char) (hd : Char)
    (hP : patP.head? = some hd) (hrep : rep.head? = some hd) (htl : hd ∉ rep.tail)
    (h7 : patP.isPrefixOf rep = false) (h8 : rep.isPrefixOf patP = false)
    (prev : Option Char) (K : List Char) :
    fireIn (litTry patP repP) prev rep K = false := by
  cases rep with
  | nil => rfl
  | cons y rt =>
      have hy : y = hd := by simpa using hrep
      simp only [fireIn, Bool.or_eq_false_iff]
      constructor
      · have h := isPrefixOf_append_false patP (y :: rt) K h7 h8
        simp only [List.cons_append] at h
        rw [litTry_isSome_cond]
        simp only [List.cons_append]
        rw [h]
        simp
      · rw [hy]
        exact fireIn_false_headfree patP repP hd hP rt (some hd) K (by simpa [hy] using htl)

theorem fireIn_oldspan_false (pat patP repP : List Char) (hd : Char)
    (hP : patP.head? = some hd) (hpat : pat.head? = some hd) (htl : hd ∉ pat.tail)
    (hne : patP ≠ pat)
    (h10 : patP.isPrefixOf pat = true → isWordChar ((pat.drop patP.length).headD ' ') = true)
    (h11 : pat.isPrefixOf patP = true → isWordChar ((patP.drop pat.length).headD ' ') = true)
    (prev : Option Char) (K : List Char) (hb : bdryAfter K = true) :
    fireIn (litTry patP repP) prev pat K = false := by
  cases pat with
  | nil => rfl
  | cons y pt =>
      have hy : y = hd := by simpa using hpat
      simp only [fireIn, Bool.or_eq_false_iff]
      constructor
      · have h := litTry_oldspan_none (y :: pt) patP repP prev K hne h10 h11 hb
        simp only [List.cons_append] at h
        simp only [List.cons_append]
        rw [h]
        rfl
      · rw [hy]
        exact fireIn_false_headfree patP repP hd hP pt (some hd) K (by simpa [hy] using htl)

/-! ### Substituting one literal rule neither creates nor destroys matches
of a distinct rule satisfying the pair side conditions, and leaves no match
of its own pattern. -/

theorem subParse_hasMatch_eq (pat rep patP repP : List Char) (hd : Char)
    (hOK : PairOK pat rep patP hd) :
    ∀ (prev : Option Char) (s out : List Char),
      SubParse (litTry pat rep) pat rep prev s out →
      hasMatchSub (litTry patP repP) prev out = hasMatchSub (litTry patP repP) prev s := by
  obtain ⟨hne, hPh, hph, hrh, hPt, hpt, hrt, h7, h8, h9, h10, h11⟩ := hOK
  have hpnil : pat ≠ [] := by
    intro h
    rw [h] at hph
    simp at hph
  have hrnil : rep ≠ [] := by
    intro h
    rw [h] at hrh
    simp at hrh
  intro prev s out hsp
  induction hsp with
  | last _ _ hv => rfl
  | step _ v s' out' hv hfire hrec ih =>
      obtain ⟨-, -, -, -, hba⟩ := litTry_fire_shape pat rep _ _ _ _ _ hfire
      have hKold : (pat ++ s').head? = some hd := by
        rw [head_append_left _ _ hpnil]
        exact hph
      have hKnew : (rep ++ out').head? = some hd := by
        rw [head_append_left _ _ hrnil]
        exact hrh
      rw [hasMatchSub_append (litTry patP repP) v _ (rep ++ out'),
        hasMatchSub_append (litTry patP repP) v _ (pat ++ s'),
        fireIn_congr patP repP hd v _ (rep ++ out') (pat ++ s') hKnew hKold hPt,
        hasMatchSub_append (litTry patP repP) rep _ out',
        hasMatchSub_append (litTry patP repP) pat _ s',
        fireIn_newspan_false rep patP repP hd hPh hrh hrt h7 h8 _ out',
        fireIn_oldspan_false pat patP repP hd hPh hph hpt hne h10 h11 _ s' hba,
        lastCtx_ne_nil _ rep hrnil, lastCtx_ne_nil _ pat hpnil, h9, ih]

theorem subParse_self_killed (pat rep : List Char) (hd : Char)
    (hOK : SelfOK pat rep hd) :
    ∀ (prev : Option Char) (s out : List Char),
      SubParse (litTry pat rep) pat rep prev s out →
      hasMatchSub (litTry pat rep) prev out = false := by
  obtain ⟨hph, hrh, hpt, hrt, h5, h6, h7⟩ := hOK
  have hpnil : pat ≠ [] := by
    intro h
    rw [h] at hph
    simp at hph
  have hrnil : rep ≠ [] := by
    intro h
    rw [h] at hrh
    simp at hrh
  intro prev s out hsp
  induction hsp with
  | last p v hv =>
      have hm := hasMatchSub_append (litTry pat rep) v p ([] : List Char)
      rw [List.append_nil] at hm
      rw [hm, fireIn_false_of_noFireOn _ v p [] hv, hasMatchSub_nil]
      rfl
  | step _ v s' out' hv hfire hrec ih =>
      have hKold : (pat ++ s').head? = some hd := by
        rw [head_append_left _ _ hpnil]
        exact hph
      have hKnew : (rep ++ out').head? = some hd := by
        rw [head_append_left _ _ hrnil]
        exact hrh
      rw [hasMatchSub_append (litTry pat rep) v _ (rep ++ out'),
        fireIn_congr pat rep hd v _ (rep ++ out') (pat ++ s') hKnew hKold hpt,
        fireIn_false_of_noFireOn _ _ _ _ hv,
        hasMatchSub_append (litTry pat rep) rep _ out',
        fireIn_newspan_false rep pat rep hd hph hrh hrt h5 h6 _ out',
        lastCtx_ne_nil _ rep hrnil, h7, ih]
      rfl

/-! ### Per-entry behaviour of the Symbol Migration stage -/

theorem wbSearch_transfer (m m' s : List Char)
    (hOK : PairOK (wbPat m') (wbRep m') (wbPat m) 'W') :
    wbSearch m (wbSubOnce m' s) = wbSearch m s := by
  have hsp := scanSub_subParse (wbPat m') (wbRep m') (wbPat_ne_nil m') s.length none s
    (Nat.le_refl _)
  exact subParse_hasMatch_eq (wbPat m') (wbRep m') (wbPat m) (wbRep m) 'W' hOK none s _ hsp

theorem wbSearch_selfkill (m s : List Char)
    (hOK : SelfOK (wbPat m) (wbRep m) 'W') :
    wbSearch m (wbSubOnce m s) = false := by
  exact subParse_self_killed (wbPat m) (wbRep m) 'W' hOK none s _
    (scanSub_subParse (wbPat m) (wbRep m) (wbPat_ne_nil m) s.length none s (Nat.le_refl _))

theorem wbStage_track (m : List Char) :
    ∀ (ms : List (List Char)) (txt : List Char) (r : List (List Char)),
      (∀ m' ∈ ms, PairOK (wbPat m') (wbRep m') (wbPat m) 'W' ∧ wbLine m' ≠ wbLine m) →
      wbSearch m (wbStage ms (txt, r)).1 = wbSearch m txt ∧
        (wbStage ms (txt, r)).2.count (wbLine m) = r.count (wbLine m) := by
  intro ms
  induction ms with
  | nil => intro txt r _; exact ⟨rfl, rfl⟩
  | cons m₀ ms ih =>
      intro txt r hall
      obtain ⟨hpair, hline⟩ := hall m₀ (by simp)
      have hrest := fun m' hm' => hall m' (List.mem_cons_of_mem m₀ hm')
      rw [wbStage_cons]
      cases hS : wbSearch m₀ txt with
      | true =>
          rw [if_pos rfl]
          obtain ⟨h1, h2⟩ := ih (wbSubOnce m₀ txt) (r ++ [wbLine m₀]) hrest
          refine ⟨?_, ?_⟩
          · rw [h1, wbSearch_transfer m m₀ txt hpair]
          · rw [h2, List.count_append, count_single_ne _ _ hline]
            omega
      | false =>
          rw [if_neg (by simp)]
          exact ih txt r hrest

theorem wbStage_hits (m : List Char) :
    ∀ (ms : List (List Char)) (txt : List Char) (r : List (List Char)),
      m ∈ ms → ms.Nodup →
      SelfOK (wbPat m) (wbRep m) 'W' →
      (∀ m' ∈ ms, m' ≠ m → PairOK (wbPat m') (wbRep m') (wbPat m) 'W' ∧ wbLine m' ≠ wbLine m) →
      wbSearch m (wbStage ms (txt, r)).1 = false ∧
        (wbStage ms (txt, r)).2.count (wbLine m) =
          r.count (wbLine m) + (if wbSearch m txt then 1 else 0) := by
  intro ms
  induction ms with
  | nil => intro txt r hm; simp at hm
  | cons m₀ ms ih =>
      intro txt r hm hnd hself hall
      have hnd' : ms.Nodup := (List.nodup_cons.mp hnd).2
      by_cases hm0 : m₀ = m
      · subst hm0
        have hm0nin : m₀ ∉ ms := (List.nodup_cons.mp hnd).1
        have htrack : ∀ m' ∈ ms,
            PairOK (wbPat m') (wbRep m') (wbPat m₀) 'W' ∧ wbLine m' ≠ wbLine m₀ :=
          fun m' hm' =>
            hall m' (List.mem_cons_of_mem m₀ hm') (fun he => hm0nin (he ▸ hm'))
        rw [wbStage_cons]
        cases hS : wbSearch m₀ txt with
        | true =>
            rw [if_pos rfl]
            obtain ⟨h1, h2⟩ := wbStage_track m₀ ms (wbSubOnce m₀ txt) (r ++ [wbLine m₀]) htrack
            refine ⟨?_, ?_⟩
            · rw [h1, wbSearch_selfkill m₀ txt hself]
            · rw [h2, List.count_append]
              simp [List.count_cons]
        | false =>
            rw [if_neg (by simp)]
            obtain ⟨h1, h2⟩ := wbStage_track m₀ ms txt r htrack
            refine ⟨by rw [h1]; exact hS, by rw [h2]; simp⟩
      · have hm' : m ∈ ms := by
          rcases List.mem_cons.mp hm with h | h
          · exact absurd h.symm hm0
          · exact h
        obtain ⟨hpair, hline⟩ := hall m₀ (by simp) hm0
        have hrest := fun m'' hmm hne => hall m'' (List.mem_cons_of_mem m₀ hmm) hne
        rw [wbStage_cons]
        cases hS : wbSearch m₀ txt with
        | true =>
            rw [if_pos rfl]
            obtain ⟨h1, h2⟩ := ih (wbSubOnce m₀ txt) (r ++ [wbLine m₀]) hm' hnd' hself hrest
            refine ⟨h1, ?_⟩
            rw [h2, List.count_append, count_single_ne _ _ hline,
              wbSearch_transfer m m₀ txt hpair]
            omega
        | false =>
            rw [if_neg (by simp)]
            exact ih txt r hm' hnd' hself hrest

/-- C2: for every catalog entry of the Symbol Migration stage, the stage
appends the entry's before/after report line exactly once when the
word-boundary-delimited qualified reference occurs in the input and not at
all otherwise, and after the stage the old qualified form no longer has any
boundary-respecting occurrence in the text; on the scenario input the stage
rewrites the reference and reports the pair. -/
theorem c2_symbol_migration :
    (∀ (s m : List Char), m ∈ WINDOW_BASE_TO_STATUSBASE_METHODS →
      (replace_window_base_methods s).2.count (wbLine m) =
        (if wbSearch m s then 1 else 0) ∧
      wbSearch m (replace_window_base_methods s).1 = false) ∧
    replace_window_base_methods
        (("Window_Base.prototype.drawActorHp = function()\x7b\x7d").data) =
      ((("Window_StatusBase.prototype.drawActorHp = function()\x7b\x7d").data),
        [wbLine (("drawActorHp").data)]) := by
  constructor
  · intro s m hm
    have hcat : ∀ m ∈ WINDOW_BASE_TO_STATUSBASE_METHODS,
        SelfOK (wbPat m) (wbRep m) 'W' ∧
        ∀ m' ∈ WINDOW_BASE_TO_STATUSBASE_METHODS, m' ≠ m →
          PairOK (wbPat m') (wbRep m') (wbPat m) 'W' ∧ wbLine m' ≠ wbLine m := by decide
    have hnd : WINDOW_BASE_TO_STATUSBASE_METHODS.Nodup := by decide
    obtain ⟨hself, hpairs⟩ := hcat m hm
    have h := wbStage_hits m WINDOW_BASE_TO_STATUSBASE_METHODS s [] hm hnd hself hpairs
    exact ⟨by simpa [replace_window_base_methods] using h.2,
      by simpa [replace_window_base_methods] using h.1⟩
  · rfl

/-- C2 witness at the entry drawActorHp on a text holding the qualified
reference once. -/
theorem c2_symbol_migration_witness :
    (replace_window_base_methods
        (("x = Window_Base.prototype.drawActorHp;").data)).2.count
        (wbLine (("drawActorHp").data)) =
      (if wbSearch (("drawActorHp").data)
          (("x = Window_Base.prototype.drawActorHp;").data) then 1 else 0) ∧
    wbSearch (("drawActorHp").data)
      (replace_window_base_methods (("x = Window_Base.prototype.drawActorHp;").data)).1 =
        false :=
  c2_symbol_migration.1 (("x = Window_Base.prototype.drawActorHp;").data)
    (("drawActorHp").data) (by decide)

end MZifier
